import Mathlib

/-!
Verification of the swizzle transcoding core of `SwizzleSpeedTest.cpp`.

The source works on flat buffers of 32-bit words.  Buffers are modelled as
total functions from element index to stored word; machine `u32` arithmetic
is kept as exact naturals except where wraparound genuinely occurs (the
masked-subtraction trick of `fastSwizzle`), where the `% 2^32` is explicit.
-/

set_option maxHeartbeats 2000000

/-- Pointwise update of a buffer modelled as a total function from element
index to stored 32-bit word: `buf[i] = v`. -/
def writeAt (buf : Nat → Nat) (i v : Nat) : Nat → Nat :=
  fun j => if j = i then v else buf j

/-- Bitwise NOT of a 32-bit word, `~v` in the source. -/
def compl32 (v : Nat) : Nat := 2 ^ 32 - 1 - v % 2 ^ 32

/-- One incremental offset update `(v - mask) & mask` of `fastSwizzle`,
with the u32 two's-complement wraparound of the subtraction made explicit. -/
def maskStep (mask v : Nat) : Nat := ((v + (2 ^ 32 - mask)) % 2 ^ 32) &&& mask

/-- Loop of `linear_to_swizzle`, with an explicit fuel argument.  The
source's `while` runs while any budget is nonzero and every iteration
decrements each nonzero budget, so `log2_width + log2_height + log2_depth`
rounds of fuel always suffice.  For budget sums at most 32 every bit is
placed below position 32 and the u32 accumulator cannot overflow; larger
budgets shift past the u32 width, which is undefined in C, so the embedding
keeps exact naturals. -/
def l2s_go : Nat → Nat → Nat → Nat → Nat → Nat → Nat → Nat → Nat → Nat
  | 0, _, _, _, _, _, _, offset, _ => offset
  | fuel + 1, x, y, z, log2_width, log2_height, log2_depth, offset, shift_count =>
    if log2_width ||| log2_height ||| log2_depth = 0 then offset
    else
      let offset1 := if log2_width ≠ 0 then offset ||| ((x &&& 1) <<< shift_count) else offset
      let shift1 := if log2_width ≠ 0 then shift_count + 1 else shift_count
      let offset2 := if log2_height ≠ 0 then offset1 ||| ((y &&& 1) <<< shift1) else offset1
      let shift2 := if log2_height ≠ 0 then shift1 + 1 else shift1
      let offset3 := if log2_depth ≠ 0 then offset2 ||| ((z &&& 1) <<< shift2) else offset2
      let shift3 := if log2_depth ≠ 0 then shift2 + 1 else shift2
      l2s_go fuel (if log2_width ≠ 0 then x >>> 1 else x)
        (if log2_height ≠ 0 then y >>> 1 else y)
        (if log2_depth ≠ 0 then z >>> 1 else z)
        (log2_width - 1) (log2_height - 1) (log2_depth - 1) offset3 shift3

/-- The source's reference address mapper `linear_to_swizzle`. -/
def linear_to_swizzle (x y z log2_width log2_height log2_depth : Nat) : Nat :=
  l2s_go (log2_width + log2_height + log2_depth) x y z log2_width log2_height log2_depth 0 0

/-- The reference transcoder `slowSwizzle`: for each linear cell it calls
`linear_to_swizzle` and copies one element.  `log2` of a power-of-two u16
dimension is exact, hence `Nat.log2`. -/
def slowSwizzle (inputPixels outputPixels : Nat → Nat) (width height : Nat)
    (swap : Bool) : Nat → Nat :=
  let log2Width := Nat.log2 width
  let log2Height := Nat.log2 height
  (List.range height).foldl (fun pixelDst y =>
    let rowStart := y * width
    (List.range width).foldl (fun pixelDst x =>
      if swap then
        writeAt pixelDst (linear_to_swizzle x y 0 log2Width log2Height 0)
          (inputPixels (rowStart + x))
      else
        writeAt pixelDst (rowStart + x)
          (inputPixels (linear_to_swizzle x y 0 log2Width log2Height 0)))
      pixelDst) outputPixels

/-- The fast transcoder `fastSwizzle`: mask setup followed by the two
row/column loops (one per direction).  The loop state is
`(offs_y, offs_x0, destination buffer)`; the inner state is
`(offs_x, destination buffer)`.  Element addresses are `base + index`
exactly as the source's pointer arithmetic forms them. -/
def fastSwizzle (inputPixels outputPixels : Nat → Nat) (width height : Nat)
    (swap : Bool) : Nat → Nat :=
  let log2width := Nat.log2 width
  let log2height := Nat.log2 height
  let limit := if log2width < log2height then log2width else log2height
  let limitMask := 1 <<< (limit <<< 1)
  let x_mask := 0x555555 ||| compl32 (limitMask - 1)
  let y_mask := 0xAAAAAA &&& (limitMask - 1)
  let y_incr := limitMask
  if swap then
    ((List.range height).foldl (fun (st : Nat × Nat × (Nat → Nat)) y =>
      let offs_y := st.1
      let offs_x0 := st.2.1
      let inner := (List.range width).foldl
        (fun (p : Nat × (Nat → Nat)) x =>
          (maskStep x_mask p.1, writeAt p.2 (offs_y + p.1) (inputPixels (y * width + x))))
        (offs_x0, st.2.2)
      let offs_y2 := maskStep y_mask offs_y
      (offs_y2, (if offs_y2 = 0 then offs_x0 + y_incr else offs_x0), inner.2))
      (0, 0, outputPixels)).2.2
  else
    ((List.range height).foldl (fun (st : Nat × Nat × (Nat → Nat)) y =>
      let offs_y := st.1
      let offs_x0 := st.2.1
      let inner := (List.range width).foldl
        (fun (p : Nat × (Nat → Nat)) x =>
          (maskStep x_mask p.1, writeAt p.2 (y * width + x) (inputPixels (offs_y + p.1))))
        (offs_x0, st.2.2)
      let offs_y2 := maskStep y_mask offs_y
      (offs_y2, (if offs_y2 = 0 then offs_x0 + y_incr else offs_x0), inner.2))
      (0, 0, outputPixels)).2.2

/-- Per-row state `(offs_y, offs_x0)` of `fastSwizzle` at the start of row
`y`, following exactly the source's end-of-row updates. -/
def fastRowState (y_mask y_incr : Nat) : Nat → Nat × Nat
  | 0 => (0, 0)
  | y + 1 =>
    let p := fastRowState y_mask y_incr y
    let offs_y2 := maskStep y_mask p.1
    (offs_y2, if offs_y2 = 0 then p.2 + y_incr else p.2)

/-- The incremental masked-subtraction offset that `fastSwizzle` uses for
element `(x, y)`: row state plus `x` applications of the per-column update. -/
def fastOffset (width height x y : Nat) : Nat :=
  let log2width := Nat.log2 width
  let log2height := Nat.log2 height
  let limit := if log2width < log2height then log2width else log2height
  let limitMask := 1 <<< (limit <<< 1)
  let x_mask := 0x555555 ||| compl32 (limitMask - 1)
  let y_mask := 0xAAAAAA &&& (limitMask - 1)
  let st := fastRowState y_mask limitMask y
  st.1 + (maskStep x_mask)^[x] st.2

/-- Modelled from the spec (§4.1 BitInterleaveAddressMapper): produce a
single integer by consuming one bit from `x` and one bit from `y`
alternately, starting with `x`'s least-significant bit, placing each
consumed bit into the next free output bit position; once one axis's
budget is exhausted, continue consuming only the other.  Fuel
`bitsX + bitsY` is exactly the total number of bits consumed. -/
def ilGo : Nat → Nat → Nat → Nat → Nat → Nat
  | 0, _, _, _, _ => 0
  | fuel + 1, x, y, bitsX, bitsY =>
    match bitsX, bitsY with
    | 0, 0 => 0
    | bX + 1, 0 => x % 2 + 2 * ilGo fuel (x / 2) y bX 0
    | 0, bY + 1 => y % 2 + 2 * ilGo fuel x (y / 2) 0 bY
    | bX + 1, bY + 1 => x % 2 + 2 * (y % 2) + 4 * ilGo fuel (x / 2) (y / 2) bX bY

/-- Spec's `mapLinearToInterleaved(x, y, bitsX, bitsY)`. -/
def mapLinearToInterleaved (x y bitsX bitsY : Nat) : Nat :=
  ilGo (bitsX + bitsY) x y bitsX bitsY

/-- Inverse of the bit interleave: recover `(x, y)` from an offset. -/
def deilGo : Nat → Nat → Nat → Nat → Nat × Nat
  | 0, _, _, _ => (0, 0)
  | fuel + 1, o, bitsX, bitsY =>
    match bitsX, bitsY with
    | 0, 0 => (0, 0)
    | bX + 1, 0 => (o % 2 + 2 * (deilGo fuel (o / 2) bX 0).1, (deilGo fuel (o / 2) bX 0).2)
    | 0, bY + 1 => ((deilGo fuel (o / 2) 0 bY).1, o % 2 + 2 * (deilGo fuel (o / 2) 0 bY).2)
    | bX + 1, bY + 1 =>
      (o % 2 + 2 * (deilGo fuel (o / 4) bX bY).1,
       o / 2 % 2 + 2 * (deilGo fuel (o / 4) bX bY).2)

/-- Inverse interleave with its canonical fuel. -/
def unInterleave (o bitsX bitsY : Nat) : Nat × Nat := deilGo (bitsX + bitsY) o bitsX bitsY

/-- Spread of the low `m` bits of `u` onto the even bit positions
`0, 2, ..., 2m-2`.  Analysis helper for the incremental masks. -/
def sE : Nat → Nat → Nat
  | 0, _ => 0
  | m + 1, u => u % 2 + 4 * sE m (u / 2)

/-- Mask of the even bit positions `0, 2, ..., 2m-2`. -/
def ev : Nat → Nat
  | 0 => 0
  | m + 1 => 1 + 4 * ev m

/-- Pure double loop of buffer writes: rows drawn from `ys`, columns
`0..width-1`, writing `val y x` at index `idx y x`. -/
def write2 (d : Nat → Nat) (idx val : Nat → Nat → Nat) (width : Nat)
    (ys : List Nat) : Nat → Nat :=
  ys.foldl (fun d y =>
    (List.range width).foldl (fun d x => writeAt d (idx y x) (val y x)) d) d

/-- Surface width fixed by `main`. -/
def mainMaxW : Nat := 128

/-- Surface height fixed by `main`. -/
def mainMaxH : Nat := 128

/-- Iteration count fixed by `main`. -/
def mainNumTimes : Nat := 4

/-- Byte count that `main` passes to `memcmp`: the literal `max_h * max_w`. -/
def mainCmpBytes : Nat := mainMaxH * mainMaxW

/-- Total byte size of one output surface of `main`: `width * height`
elements of 4 bytes each. -/
def mainSurfaceBytes : Nat := 4 * (mainMaxW * mainMaxH)

/-- Byte `i` of a buffer of little-endian 32-bit words. -/
def elemByte (buf : Nat → Nat) (i : Nat) : Nat := buf (i / 4) / 2 ^ (8 * (i % 4)) % 256

/-- `memcmp(f, g, n) == 0` on the byte views of two word buffers. -/
def memcmpEq (f g : Nat → Nat) (n : Nat) : Prop :=
  ∀ i, i < n → elemByte f i = elemByte g i

/-- Exit status of `main` as a function of the per-iteration comparison
outcomes: the source's single return statement is the literal `0`; no
execution path records a failure into the exit status. -/
def mainExitCode (mismatches : List Bool) : Nat := 0

/-! ### Basic bitwise and arithmetic toolbox -/

theorem or_eq_zero_parts {a b : Nat} (h : a ||| b = 0) : a = 0 ∧ b = 0 := by
  have h1 : a ≤ a ||| b := Nat.le_of_testBit fun i hi => by simp [Nat.testBit_or, hi]
  have h2 : b ≤ a ||| b := Nat.le_of_testBit fun i hi => by simp [Nat.testBit_or, hi]
  omega

theorem land_split {k a c : Nat} (b d : Nat) (ha : a < 2 ^ k) (hc : c < 2 ^ k) :
    (2 ^ k * b + a) &&& (2 ^ k * d + c) = 2 ^ k * (b &&& d) + (a &&& c) := by
  apply Nat.eq_of_testBit_eq
  intro j
  rw [Nat.testBit_and, Nat.testBit_mul_pow_two_add _ ha, Nat.testBit_mul_pow_two_add _ hc,
    Nat.testBit_mul_pow_two_add _ (Nat.and_lt_two_pow a hc)]
  by_cases h : j < k <;> simp [h, Nat.testBit_and]

theorem land_split4 {a c : Nat} (b d : Nat) (ha : a < 4) (hc : c < 4) :
    (4 * b + a) &&& (4 * d + c) = 4 * (b &&& d) + (a &&& c) := by
  have h := land_split (k := 2) b d (a := a) (c := c) (by norm_num; omega) (by norm_num; omega)
  norm_num at h
  exact h

theorem or_disj {k b : Nat} (a : Nat) (ha : a < 2 ^ k) : a ||| 2 ^ k * b = 2 ^ k * b + a := by
  rw [Nat.or_comm]
  exact (Nat.mul_add_lt_is_or ha b).symm

theorem four_pow (m : Nat) : (4 : Nat) ^ m = 2 ^ (2 * m) := by
  rw [show (4 : Nat) = 2 ^ 2 by norm_num, ← pow_mul]

theorem shiftLeft_double_one (m : Nat) : (1 <<< (m <<< 1) : Nat) = 4 ^ m := by
  rw [Nat.shiftLeft_eq, Nat.shiftLeft_eq, one_mul, four_pow]
  congr 1
  omega

theorem mod_two_pow_succ (x s : Nat) : x % 2 ^ (s + 1) = x % 2 + 2 * (x / 2 % 2 ^ s) := by
  have h1 : (2 : Nat) ^ (s + 1) = 2 * 2 ^ s := by rw [pow_succ, Nat.mul_comm]
  rw [h1]
  have h2 : x % (2 * 2 ^ s) / 2 = x / 2 % 2 ^ s := Nat.mod_mul_right_div_self x 2 (2 ^ s)
  have h3 : x % (2 * 2 ^ s) % 2 = x % 2 := Nat.mod_mod_of_dvd x ⟨2 ^ s, rfl⟩
  have h4 := Nat.div_add_mod (x % (2 * 2 ^ s)) 2
  omega

theorem div_two_pow_succ (x s : Nat) : x / 2 ^ (s + 1) = x / 2 / 2 ^ s := by
  rw [Nat.div_div_eq_div_mul]
  congr 1
  rw [pow_succ, Nat.mul_comm]

theorem mod_two_pow_succ_div_two (x s : Nat) : x % 2 ^ (s + 1) / 2 = x / 2 % 2 ^ s := by
  have := mod_two_pow_succ x s
  omega

theorem mul_pred_div (A B : Nat) (hA : 0 < A) (hB : 0 < B) : (A * B - 1) / A = B - 1 := by
  apply Nat.div_eq_of_lt_le
  · calc (B - 1) * A = A * B - A := by rw [Nat.sub_mul, one_mul, Nat.mul_comm]
    _ ≤ A * B - 1 := Nat.sub_le_sub_left hA (A * B)
  · rw [Nat.sub_add_cancel hB, Nat.mul_comm B A]
    exact Nat.sub_lt (Nat.mul_pos hA hB) Nat.one_pos

theorem two_pow_sub_one_div {j k : Nat} (h : j ≤ k) : (2 ^ k - 1) / 2 ^ j = 2 ^ (k - j) - 1 := by
  have hd := mul_pred_div (2 ^ j) (2 ^ (k - j)) (Nat.two_pow_pos j) (Nat.two_pow_pos (k - j))
  have hk : j + (k - j) = k := by omega
  rw [← pow_add, hk] at hd
  exact hd

/-! ### Facts about the even-bit mask and the spread function -/

theorem three_ev (m : Nat) : 3 * ev m + 1 = 4 ^ m := by
  induction m with
  | zero => simp [ev]
  | succ m ih => rw [show ev (m + 1) = 1 + 4 * ev m from rfl, pow_succ]; omega

theorem ev_lt (m : Nat) : ev m < 4 ^ m := by
  have := three_ev m
  omega

theorem sE_le_ev (m u : Nat) : sE m u ≤ ev m := by
  induction m generalizing u with
  | zero => simp [sE, ev]
  | succ m ih =>
    have h1 := ih (u / 2)
    have h2 : u % 2 ≤ 1 := by omega
    show u % 2 + 4 * sE m (u / 2) ≤ 1 + 4 * ev m
    omega

theorem sE_lt (m u : Nat) : sE m u < 4 ^ m := by
  have h1 := sE_le_ev m u
  have h2 := ev_lt m
  omega

theorem sE_zero (m : Nat) : sE m 0 = 0 := by
  induction m with
  | zero => rfl
  | succ m ih => show 0 % 2 + 4 * sE m (0 / 2) = 0; simpa using ih

theorem sE_mod (m u : Nat) : sE m (u % 2 ^ m) = sE m u := by
  induction m generalizing u with
  | zero => rfl
  | succ m ih =>
    show u % 2 ^ (m + 1) % 2 + 4 * sE m (u % 2 ^ (m + 1) / 2) = u % 2 + 4 * sE m (u / 2)
    rw [Nat.mod_mod_of_dvd u ⟨2 ^ m, by rw [pow_succ, Nat.mul_comm]⟩,
      mod_two_pow_succ_div_two, ih (u / 2)]

theorem sE_full (m : Nat) : sE m (2 ^ m - 1) = ev m := by
  induction m with
  | zero => rfl
  | succ m ih =>
    have h2 : (2 : Nat) ^ (m + 1) = 2 * 2 ^ m := by rw [pow_succ, Nat.mul_comm]
    have hpos := Nat.two_pow_pos m
    show (2 ^ (m + 1) - 1) % 2 + 4 * sE m ((2 ^ (m + 1) - 1) / 2) = ev (m + 1)
    have hm : (2 ^ (m + 1) - 1) % 2 = 1 := by omega
    have hd : (2 ^ (m + 1) - 1) / 2 = 2 ^ m - 1 := by omega
    rw [hm, hd, ih]
    rfl

theorem sE_lt_ev {m u : Nat} (h : u + 1 < 2 ^ m) : sE m u < ev m := by
  induction m generalizing u with
  | zero => simp at h
  | succ m ih =>
    have h2 : (2 : Nat) ^ (m + 1) = 2 * 2 ^ m := by rw [pow_succ, Nat.mul_comm]
    show u % 2 + 4 * sE m (u / 2) < ev (m + 1)
    rcases Nat.lt_or_ge (u / 2 + 1) (2 ^ m) with hlt | hge
    · have h1 := ih hlt
      have h3 : u % 2 ≤ 1 := by omega
      show _ < 1 + 4 * ev m
      omega
    · have hu2 : u / 2 = 2 ^ m - 1 := by omega
      have hu0 : u % 2 = 0 := by omega
      rw [hu0, hu2, sE_full]
      show 0 + 4 * ev m < 1 + 4 * ev m
      omega

theorem sE_eq_zero_iff (m u : Nat) : sE m u = 0 ↔ u % 2 ^ m = 0 := by
  induction m generalizing u with
  | zero => simp [sE, Nat.mod_one]
  | succ m ih =>
    have hm := mod_two_pow_succ u m
    have hih := ih (u / 2)
    show u % 2 + 4 * sE m (u / 2) = 0 ↔ u % 2 ^ (m + 1) = 0
    omega

/-! ### Masked-increment core lemmas -/

theorem land_spread_even (m v : Nat) : (sE m v + 2 * ev m) &&& ev m = sE m v := by
  induction m generalizing v with
  | zero => simp [sE, ev]
  | succ m ih =>
    have hs : sE (m + 1) v = v % 2 + 4 * sE m (v / 2) := rfl
    have he : ev (m + 1) = 1 + 4 * ev m := rfl
    have e1 : sE (m + 1) v + 2 * ev (m + 1) = 4 * (sE m (v / 2) + 2 * ev m) + (v % 2 + 2) := by
      rw [hs, he]; ring
    have e2 : ev (m + 1) = 4 * ev m + 1 := by rw [he]; ring
    rw [e1, e2, land_split4 _ _ (by omega) (by omega), ih]
    rw [hs]
    rcases Nat.mod_two_eq_zero_or_one v with h | h
    · rw [h, (by decide : ((0 : Nat) + 2) &&& 1 = 0)]
      omega
    · rw [h, (by decide : ((1 : Nat) + 2) &&& 1 = 1)]
      omega

theorem land_spread_even_succ (m u : Nat) (h : u + 1 < 2 ^ m) :
    (sE m u + 2 * ev m + 1) &&& ev m = sE m (u + 1) := by
  induction m generalizing u with
  | zero => have h0 : (2 : Nat) ^ 0 = 1 := rfl; omega
  | succ m ih =>
    have hs : sE (m + 1) u = u % 2 + 4 * sE m (u / 2) := rfl
    have he : ev (m + 1) = 1 + 4 * ev m := rfl
    have e2 : ev (m + 1) = 4 * ev m + 1 := by rw [he]; ring
    have hp : (2 : Nat) ^ (m + 1) = 2 * 2 ^ m := by rw [pow_succ, Nat.mul_comm]
    have hr : sE (m + 1) (u + 1) = (u + 1) % 2 + 4 * sE m ((u + 1) / 2) := rfl
    rcases Nat.mod_two_eq_zero_or_one u with hu | hu
    · have e1 : sE (m + 1) u + 2 * ev (m + 1) + 1 = 4 * (sE m (u / 2) + 2 * ev m) + 3 := by
        rw [hs, he, hu]; ring
      rw [e1, e2, land_split4 _ _ (by omega) (by omega), land_spread_even,
        (by decide : ((3 : Nat) &&& 1) = 1)]
      have h1 : (u + 1) % 2 = 1 := by omega
      have h2 : (u + 1) / 2 = u / 2 := by omega
      rw [hr, h1, h2]
      ring
    · have e1 : sE (m + 1) u + 2 * ev (m + 1) + 1 = 4 * (sE m (u / 2) + 2 * ev m + 1) + 0 := by
        rw [hs, he, hu]; ring
      rw [e1, e2, land_split4 _ _ (by omega) (by omega), ih _ (by omega),
        (by decide : ((0 : Nat) &&& 1) = 0)]
      have h1 : (u + 1) % 2 = 0 := by omega
      have h2 : (u + 1) / 2 = u / 2 + 1 := by omega
      rw [hr, h1, h2]
      ring

theorem land_spread_odd (m v : Nat) : (2 * sE m v + ev m) &&& (2 * ev m) = 2 * sE m v := by
  induction m generalizing v with
  | zero => simp [sE, ev]
  | succ m ih =>
    have hs : sE (m + 1) v = v % 2 + 4 * sE m (v / 2) := rfl
    have he : ev (m + 1) = 1 + 4 * ev m := rfl
    have e1 : 2 * sE (m + 1) v + ev (m + 1) =
        4 * (2 * sE m (v / 2) + ev m) + (2 * (v % 2) + 1) := by
      rw [hs, he]; ring
    have e2 : 2 * ev (m + 1) = 4 * (2 * ev m) + 2 := by rw [he]; ring
    rw [e1, e2, land_split4 _ _ (by omega) (by omega), ih, hs]
    rcases Nat.mod_two_eq_zero_or_one v with h | h
    · rw [h, (by decide : (2 * (0 : Nat) + 1) &&& 2 = 0)]
      ring
    · rw [h, (by decide : (2 * (1 : Nat) + 1) &&& 2 = 2)]
      ring

theorem land_spread_odd_succ (m u : Nat) (h : u + 1 < 2 ^ m) :
    (2 * sE m u + ev m + 1) &&& (2 * ev m) = 2 * sE m (u + 1) := by
  induction m generalizing u with
  | zero => have h0 : (2 : Nat) ^ 0 = 1 := rfl; omega
  | succ m ih =>
    have hs : sE (m + 1) u = u % 2 + 4 * sE m (u / 2) := rfl
    have he : ev (m + 1) = 1 + 4 * ev m := rfl
    have e2 : 2 * ev (m + 1) = 4 * (2 * ev m) + 2 := by rw [he]; ring
    have hp : (2 : Nat) ^ (m + 1) = 2 * 2 ^ m := by rw [pow_succ, Nat.mul_comm]
    have hr : sE (m + 1) (u + 1) = (u + 1) % 2 + 4 * sE m ((u + 1) / 2) := rfl
    rcases Nat.mod_two_eq_zero_or_one u with hu | hu
    · have e1 : 2 * sE (m + 1) u + ev (m + 1) + 1 =
          4 * (2 * sE m (u / 2) + ev m) + 2 := by
        rw [hs, he, hu]; ring
      rw [e1, e2, land_split4 _ _ (by omega) (by omega), land_spread_odd,
        (by decide : ((2 : Nat) &&& 2) = 2)]
      have h1 : (u + 1) % 2 = 1 := by omega
      have h2 : (u + 1) / 2 = u / 2 := by omega
      rw [hr, h1, h2]
      ring
    · have e1 : 2 * sE (m + 1) u + ev (m + 1) + 1 =
          4 * (2 * sE m (u / 2) + ev m + 1) + 0 := by
        rw [hs, he, hu]; ring
      rw [e1, e2, land_split4 _ _ (by omega) (by omega), ih _ (by omega),
        (by decide : ((0 : Nat) &&& 2) = 0)]
      have h1 : (u + 1) % 2 = 0 := by omega
      have h2 : (u + 1) / 2 = u / 2 + 1 := by omega
      rw [hr, h1, h2]
      ring

/-! ### Successor of division and remainder -/

theorem succ_mod_of_lt {t n : Nat} (h : t % n + 1 < n) : (t + 1) % n = t % n + 1 := by
  conv_lhs => rw [Nat.add_mod]
  rw [Nat.mod_eq_of_lt (show 1 < n by omega)]
  exact Nat.mod_eq_of_lt h

theorem succ_div_of_lt {t n : Nat} (h : t % n + 1 < n) : (t + 1) / n = t / n := by
  rw [Nat.succ_div]
  have hnd : ¬ n ∣ t + 1 := by
    intro hd
    obtain ⟨q, hq⟩ := hd
    have h0 : (t + 1) % n = 0 := by rw [hq]; exact Nat.mul_mod_right n q
    rw [succ_mod_of_lt h] at h0
    omega
  simp [hnd]

theorem succ_mod_of_eq {t n : Nat} (h : t % n + 1 = n) : (t + 1) % n = 0 := by
  conv_lhs => rw [Nat.add_mod]
  by_cases hn : n = 1
  · subst hn; omega
  · rw [Nat.mod_eq_of_lt (show 1 < n by omega), h, Nat.mod_self]

theorem succ_div_of_eq {t n : Nat} (h : t % n + 1 = n) : (t + 1) / n = t / n + 1 := by
  rw [Nat.succ_div]
  have hd : n ∣ t + 1 := Nat.dvd_of_mod_eq_zero (succ_mod_of_eq h)
  simp [hd]

/-! ### Characterizing one masked-subtraction step -/

theorem land_carry_high {j : Nat} (W V A : Nat) (hA : A < 2 ^ j) (hWV : W &&& V = W) :
    (2 ^ j * W + A) &&& (2 ^ j * V) = 2 ^ j * W := by
  conv_lhs => rw [show 2 ^ j * V = 2 ^ j * V + 0 by ring]
  rw [land_split _ _ hA (Nat.two_pow_pos j), hWV, Nat.and_zero, Nat.add_zero]

/-- One x-lane update of the fast swizzler on a mask with `m` interleaved
even bits and a solid carry block from bit `2k` upward: it increments the
spread counter `t`, carrying lane overflow into the block. -/
theorem maskStep_x (m k c t : Nat) (hmk : m ≤ k) (hk16 : k ≤ 16)
    (hov : (c + t / 2 ^ m + 1) * 4 ^ k < 2 ^ 32) :
    maskStep (ev m + (2 ^ 32 - 4 ^ k)) ((c + t / 2 ^ m) * 4 ^ k + sE m t) =
      (c + (t + 1) / 2 ^ m) * 4 ^ k + sE m (t + 1) := by
  have hGpos : 0 < (4 : Nat) ^ (k - m) := pow_pos (by norm_num) _
  have hHpos : 0 < (2 : Nat) ^ (32 - 2 * k) := Nat.two_pow_pos _
  obtain ⟨G, hG⟩ : ∃ G, (4 : Nat) ^ (k - m) = G + 1 := ⟨4 ^ (k - m) - 1, by omega⟩
  obtain ⟨H, hH⟩ : ∃ H, (2 : Nat) ^ (32 - 2 * k) = H + 1 := ⟨2 ^ (32 - 2 * k) - 1, by omega⟩
  have hkm : (4 : Nat) ^ k = 4 ^ m * (G + 1) := by
    rw [← hG, ← pow_add]
    congr 1
    omega
  have h32 : (2 : Nat) ^ 32 = 4 ^ k * (H + 1) := by
    rw [← hH, four_pow, ← pow_add]
    congr 1
    omega
  have hM : (4 : Nat) ^ m = 3 * ev m + 1 := (three_ev m).symm
  have hevlt : ev m < 4 ^ m := ev_lt m
  have hm4le : (4 : Nat) ^ m ≤ 4 ^ k := Nat.pow_le_pow_right (by norm_num) hmk
  have hev2 : ev m < 2 ^ (2 * m) := by rw [← four_pow m]; omega
  have h232 : 2 ^ 32 - 4 ^ k = 4 ^ k * H := by
    rw [h32, Nat.mul_add, Nat.mul_one, Nat.add_sub_cancel]
  have hCH : c + t / 2 ^ m + 1 < H + 1 := by
    have hov2 := hov
    rw [h32, Nat.mul_comm ((4 : Nat) ^ k) (H + 1)] at hov2
    exact lt_of_mul_lt_mul_right hov2 (Nat.zero_le _)
  have hG2 : (G : Nat) + 1 = 2 ^ (2 * (k - m)) := by rw [← hG, four_pow]
  simp only [maskStep]
  rw [h232]
  have hsub : 2 ^ 32 - (ev m + 4 ^ k * H) = 4 ^ k - ev m := by
    have h32' : (2 : Nat) ^ 32 = 4 ^ k * H + 4 ^ k := by rw [h32]; ring
    generalize (4 : Nat) ^ k * H = P at h32' ⊢
    omega
  rw [hsub]
  have hmask : ev m + 4 ^ k * H = 2 ^ (2 * m) * ((G + 1) * H) + ev m := by
    rw [hkm, ← four_pow m]
    ring
  rcases Nat.lt_or_ge (t % 2 ^ m + 1) (2 ^ m) with hcase | hcase
  · -- lane does not wrap
    have hslt : sE m t < ev m := by
      have h := sE_lt_ev (m := m) (u := t % 2 ^ m) hcase
      rwa [sE_mod] at h
    have hKe : 4 ^ k - ev m = 4 ^ m * G + 2 * ev m + 1 := by
      have h1 : (4 : Nat) ^ k = 4 ^ m * G + 4 ^ m := by rw [hkm]; ring
      generalize (4 : Nat) ^ m * G = Q at h1 ⊢
      omega
    have hSum : (c + t / 2 ^ m) * 4 ^ k + sE m t + (4 ^ k - ev m)
        = 2 ^ (2 * m) * ((G + 1) * (c + t / 2 ^ m) + G) + (sE m t + 2 * ev m + 1) := by
      rw [hKe, ← four_pow m, hkm]
      ring
    rw [hSum]
    have hlow_lt : sE m t + 2 * ev m + 1 < 2 ^ (2 * m) := by
      rw [← four_pow m]
      omega
    have hval_lt : 2 ^ (2 * m) * ((G + 1) * (c + t / 2 ^ m) + G)
        + (sE m t + 2 * ev m + 1) < 2 ^ 32 :=
      calc 2 ^ (2 * m) * ((G + 1) * (c + t / 2 ^ m) + G) + (sE m t + 2 * ev m + 1)
          < 2 ^ (2 * m) * ((G + 1) * (c + t / 2 ^ m) + G) + 2 ^ (2 * m) :=
            Nat.add_lt_add_left hlow_lt _
      _ = 2 ^ (2 * m) * ((G + 1) * (c + t / 2 ^ m) + G + 1) := by ring
      _ ≤ 2 ^ (2 * m) * ((G + 1) * (c + t / 2 ^ m + 1)) :=
            Nat.mul_le_mul_left _ (le_of_eq (by ring))
      _ = (c + t / 2 ^ m + 1) * 4 ^ k := by rw [hkm, ← four_pow m]; ring
      _ < 2 ^ 32 := hov
    rw [Nat.mod_eq_of_lt hval_lt, hmask,
      land_split ((G + 1) * (c + t / 2 ^ m) + G) ((G + 1) * H) hlow_lt hev2]
    have hXl : (sE m t + 2 * ev m + 1) &&& ev m = sE m (t % 2 ^ m + 1) := by
      rw [← sE_mod m t]
      exact land_spread_even_succ m (t % 2 ^ m) hcase
    have hhigh : ((G + 1) * (c + t / 2 ^ m) + G) &&& ((G + 1) * H)
        = (G + 1) * (c + t / 2 ^ m) := by
      rw [hG2, Nat.mul_comm (2 ^ (2 * (k - m))) (c + t / 2 ^ m)]
      rw [Nat.mul_comm (2 ^ (2 * (k - m))) H]
      rw [Nat.mul_comm (c + t / 2 ^ m) (2 ^ (2 * (k - m))), Nat.mul_comm H (2 ^ (2 * (k - m)))]
      apply land_carry_high
      · rw [← hG2]; omega
      · have hHones : H = 2 ^ (32 - 2 * k) - 1 := by omega
        rw [hHones]
        exact Nat.and_pow_two_sub_one_of_lt_two_pow (by omega)
    rw [hXl, hhigh]
    rw [succ_div_of_lt hcase]
    have hse : sE m (t + 1) = sE m (t % 2 ^ m + 1) := by
      rw [← sE_mod m (t + 1), succ_mod_of_lt hcase]
    rw [hse, hkm, ← four_pow m]
    ring
  · -- lane wraps: carry into the block
    have hcase' : t % 2 ^ m + 1 = 2 ^ m := by
      have := Nat.mod_lt t (Nat.two_pow_pos m)
      omega
    have hse : sE m t = ev m := by
      rw [← sE_mod m t, show t % 2 ^ m = 2 ^ m - 1 by omega, sE_full]
    have hSum : (c + t / 2 ^ m) * 4 ^ k + sE m t + (4 ^ k - ev m)
        = (c + t / 2 ^ m + 1) * 4 ^ k := by
      rw [hse]
      have hek : ev m ≤ 4 ^ k := le_of_lt (lt_of_lt_of_le hevlt hm4le)
      have h1 : (c + t / 2 ^ m + 1) * 4 ^ k = (c + t / 2 ^ m) * 4 ^ k + 4 ^ k := by ring
      generalize (c + t / 2 ^ m) * 4 ^ k = A at h1 ⊢
      generalize (c + t / 2 ^ m + 1) * 4 ^ k = B at h1 ⊢
      omega
    rw [hSum, Nat.mod_eq_of_lt hov, hmask]
    have hdec : (c + t / 2 ^ m + 1) * 4 ^ k
        = 2 ^ (2 * m) * ((G + 1) * (c + t / 2 ^ m + 1)) + 0 := by
      rw [hkm, ← four_pow m]
      ring
    rw [hdec, land_split _ _ (Nat.two_pow_pos _) hev2, Nat.zero_and, Nat.add_zero]
    have hhigh : ((G + 1) * (c + t / 2 ^ m + 1)) &&& ((G + 1) * H)
        = (G + 1) * (c + t / 2 ^ m + 1) := by
      rw [hG2, Nat.mul_comm (2 ^ (2 * (k - m))) (c + t / 2 ^ m + 1),
        Nat.mul_comm (2 ^ (2 * (k - m))) H,
        Nat.mul_comm (c + t / 2 ^ m + 1) (2 ^ (2 * (k - m))),
        Nat.mul_comm H (2 ^ (2 * (k - m)))]
      have hzlt : (0 : Nat) < 2 ^ (2 * (k - m)) := Nat.two_pow_pos _
      have := land_carry_high (j := 2 * (k - m)) (c + t / 2 ^ m + 1) H 0 hzlt ?_
      · rw [Nat.add_zero] at this
        exact this
      · have hHones : H = 2 ^ (32 - 2 * k) - 1 := by omega
        rw [hHones]
        exact Nat.and_pow_two_sub_one_of_lt_two_pow (by omega)
    rw [hhigh]
    rw [succ_div_of_eq hcase']
    have hz : sE m (t + 1) = 0 := by
      rw [← sE_mod m (t + 1), succ_mod_of_eq hcase', sE_zero]
    rw [hz, hkm, ← four_pow m]
    ring

/-- One y-lane update of the fast swizzler: the odd-bit lane of `m`
interleaved bits is incremented, wrapping to zero when it is full. -/
theorem maskStep_y (m y : Nat) (hm : m ≤ 15) :
    maskStep (2 * ev m) (2 * sE m y) = 2 * sE m (y + 1) := by
  have hM : (4 : Nat) ^ m = 3 * ev m + 1 := (three_ev m).symm
  have hm4 : (4 : Nat) ^ m ≤ 2 ^ 30 := by
    calc (4 : Nat) ^ m ≤ 4 ^ 15 := Nat.pow_le_pow_right (by norm_num) hm
    _ = 2 ^ 30 := by norm_num
  have hHpos : 0 < (2 : Nat) ^ (32 - 2 * m) := Nat.two_pow_pos _
  obtain ⟨H, hH⟩ : ∃ H, (2 : Nat) ^ (32 - 2 * m) = H + 1 := ⟨2 ^ (32 - 2 * m) - 1, by omega⟩
  have h32 : (2 : Nat) ^ 32 = 4 ^ m * (H + 1) := by
    rw [← hH, four_pow, ← pow_add]
    congr 1
    omega
  have hevlt : ev m < 4 ^ m := ev_lt m
  have h2e32 : 2 * ev m ≤ 2 ^ 32 := by omega
  simp only [maskStep]
  rcases Nat.lt_or_ge (y % 2 ^ m + 1) (2 ^ m) with hcase | hcase
  · have hslt : sE m y < ev m := by
      have h := sE_lt_ev (m := m) (u := y % 2 ^ m) hcase
      rwa [sE_mod] at h
    have hSum : 2 * sE m y + (2 ^ 32 - 2 * ev m)
        = 2 ^ (2 * m) * H + (2 * sE m y + ev m + 1) := by
      have h32' : (2 : Nat) ^ 32 = 4 ^ m * H + 4 ^ m := by rw [h32]; ring
      rw [← four_pow m]
      generalize (4 : Nat) ^ m * H = P at h32' ⊢
      omega
    rw [hSum]
    have hlow : 2 * sE m y + ev m + 1 < 2 ^ (2 * m) := by
      rw [← four_pow m]
      omega
    have hval : 2 ^ (2 * m) * H + (2 * sE m y + ev m + 1) < 2 ^ 32 := by
      have h3 : (2 : Nat) ^ 32 = 2 ^ (2 * m) * H + 2 ^ (2 * m) := by
        rw [four_pow] at h32
        rw [h32]
        ring
      generalize (2 : Nat) ^ (2 * m) * H = P at h3 ⊢
      omega
    rw [Nat.mod_eq_of_lt hval]
    have hmaske : 2 * ev m = 2 ^ (2 * m) * 0 + 2 * ev m := by ring
    rw [hmaske, land_split _ _ hlow (by rw [← four_pow m]; omega), Nat.and_zero,
      Nat.mul_zero, Nat.zero_add]
    rw [← sE_mod m y, land_spread_odd_succ m (y % 2 ^ m) hcase]
    rw [show sE m (y % 2 ^ m + 1) = sE m (y + 1) from by
      rw [← succ_mod_of_lt hcase, sE_mod]]
  · have hcase' : y % 2 ^ m + 1 = 2 ^ m := by
      have := Nat.mod_lt y (Nat.two_pow_pos m)
      omega
    have hse : sE m y = ev m := by
      rw [← sE_mod m y, show y % 2 ^ m = 2 ^ m - 1 by omega, sE_full]
    have hSum : 2 * sE m y + (2 ^ 32 - 2 * ev m) = 2 ^ 32 := by
      rw [hse]
      omega
    rw [hSum, Nat.mod_self, Nat.zero_and]
    rw [show sE m (y + 1) = 0 from by
      rw [← sE_mod m (y + 1), succ_mod_of_eq hcase', sE_zero]]

/-- Iterating the x-lane update `t` times from a block-aligned start yields
the spread of `t` plus the accumulated carries. -/
theorem iterate_maskStep_x (m k c : Nat) (hmk : m ≤ k) (hk16 : k ≤ 16) (t : Nat) :
    (c + t / 2 ^ m + 1) * 4 ^ k < 2 ^ 32 →
    (maskStep (ev m + (2 ^ 32 - 4 ^ k)))^[t] (c * 4 ^ k)
      = (c + t / 2 ^ m) * 4 ^ k + sE m t := by
  induction t with
  | zero =>
    intro _
    simp [sE_zero]
  | succ t ih =>
    intro hov
    have hov_t : (c + t / 2 ^ m + 1) * 4 ^ k < 2 ^ 32 := by
      have hdiv : t / 2 ^ m ≤ (t + 1) / 2 ^ m := Nat.div_le_div_right (by omega)
      calc (c + t / 2 ^ m + 1) * 4 ^ k
          ≤ (c + (t + 1) / 2 ^ m + 1) * 4 ^ k := Nat.mul_le_mul_right _ (by omega)
      _ < 2 ^ 32 := hov
    rw [Function.iterate_succ_apply', ih hov_t, maskStep_x m k c t hmk hk16 hov_t]

/-- The row state of the fast swizzler after `y` rows: the y-lane spread of
`y` and the accumulated row carry. -/
theorem fastRowState_spread (m inc : Nat) (hm : m ≤ 15) (y : Nat) :
    fastRowState (2 * ev m) inc y = (2 * sE m y, y / 2 ^ m * inc) := by
  induction y with
  | zero =>
    show (0, 0) = (2 * sE m 0, 0 / 2 ^ m * inc)
    rw [sE_zero, Nat.zero_div]
    simp
  | succ y ih =>
    have hstep : fastRowState (2 * ev m) inc (y + 1)
        = (maskStep (2 * ev m) (fastRowState (2 * ev m) inc y).1,
           if maskStep (2 * ev m) (fastRowState (2 * ev m) inc y).1 = 0
           then (fastRowState (2 * ev m) inc y).2 + inc
           else (fastRowState (2 * ev m) inc y).2) := rfl
    rw [hstep, ih]
    simp only
    rw [maskStep_y m y hm]
    have hmlt := Nat.mod_lt y (Nat.two_pow_pos m)
    by_cases h0 : (y + 1) % 2 ^ m = 0
    · have hz : 2 * sE m (y + 1) = 0 := by
        rw [show sE m (y + 1) = 0 from by rw [← sE_mod m (y + 1), h0, sE_zero]]
      rw [if_pos hz]
      have hd : (y + 1) / 2 ^ m = y / 2 ^ m + 1 := by
        rcases Nat.lt_or_ge (y % 2 ^ m + 1) (2 ^ m) with hc | hc
        · have := succ_mod_of_lt hc
          omega
        · exact succ_div_of_eq (by omega)
      rw [hd, Nat.add_mul, one_mul]
    · have hnz : ¬ 2 * sE m (y + 1) = 0 := by
        have hz := sE_eq_zero_iff m (y + 1)
        omega
      rw [if_neg hnz]
      have hd : (y + 1) / 2 ^ m = y / 2 ^ m := by
        rcases Nat.lt_or_ge (y % 2 ^ m + 1) (2 ^ m) with hc | hc
        · exact succ_div_of_lt hc
        · have := succ_mod_of_eq (t := y) (n := 2 ^ m) (by omega)
          omega
      rw [hd]

/-! ### The canonical interleave map -/

theorem ilGo_zero_budget (f x y : Nat) : ilGo f x y 0 0 = 0 := by cases f <;> rfl

theorem ilGo_fuel (f1 : Nat) : ∀ f2 x y a b, a + b ≤ f1 → a + b ≤ f2 →
    ilGo f1 x y a b = ilGo f2 x y a b := by
  induction f1 with
  | zero =>
    intro f2 x y a b h1 _
    have ha : a = 0 := by omega
    have hb : b = 0 := by omega
    subst ha; subst hb
    rw [ilGo_zero_budget, ilGo_zero_budget]
  | succ f1 ih =>
    intro f2 x y a b h1 h2
    match f2, a, b with
    | 0, a, b =>
      have ha : a = 0 := by omega
      have hb : b = 0 := by omega
      subst ha; subst hb
      rw [ilGo_zero_budget, ilGo_zero_budget]
    | f2 + 1, 0, 0 => rfl
    | f2 + 1, aX + 1, 0 =>
      show x % 2 + 2 * ilGo f1 (x / 2) y aX 0 = x % 2 + 2 * ilGo f2 (x / 2) y aX 0
      rw [ih f2 (x / 2) y aX 0 (by omega) (by omega)]
    | f2 + 1, 0, bY + 1 =>
      show y % 2 + 2 * ilGo f1 x (y / 2) 0 bY = y % 2 + 2 * ilGo f2 x (y / 2) 0 bY
      rw [ih f2 x (y / 2) 0 bY (by omega) (by omega)]
    | f2 + 1, aX + 1, bY + 1 =>
      show x % 2 + 2 * (y % 2) + 4 * ilGo f1 (x / 2) (y / 2) aX bY
          = x % 2 + 2 * (y % 2) + 4 * ilGo f2 (x / 2) (y / 2) aX bY
      rw [ih f2 (x / 2) (y / 2) aX bY (by omega) (by omega)]

theorem il_00 (x y : Nat) : mapLinearToInterleaved x y 0 0 = 0 := rfl

theorem il_xy (x y a b : Nat) :
    mapLinearToInterleaved x y (a + 1) (b + 1)
      = x % 2 + 2 * (y % 2) + 4 * mapLinearToInterleaved (x / 2) (y / 2) a b := by
  unfold mapLinearToInterleaved
  rw [show a + 1 + (b + 1) = a + b + 1 + 1 by ring]
  show x % 2 + 2 * (y % 2) + 4 * ilGo (a + b + 1) (x / 2) (y / 2) a b = _
  rw [ilGo_fuel (a + b + 1) (a + b) (x / 2) (y / 2) a b (by omega) (by omega)]

theorem il_x0 (x y a : Nat) :
    mapLinearToInterleaved x y (a + 1) 0 = x % 2 + 2 * mapLinearToInterleaved (x / 2) y a 0 := by
  unfold mapLinearToInterleaved
  rfl

theorem il_y0 (x y b : Nat) :
    mapLinearToInterleaved x y 0 (b + 1) = y % 2 + 2 * mapLinearToInterleaved x (y / 2) 0 b := by
  unfold mapLinearToInterleaved
  rw [show 0 + (b + 1) = b + 1 by ring]
  show y % 2 + 2 * ilGo b x (y / 2) 0 b = _
  rw [ilGo_fuel b (0 + b) x (y / 2) 0 b (by omega) (by omega)]

theorem il_lt_aux : ∀ n a b x y, a + b ≤ n →
    mapLinearToInterleaved x y a b < 2 ^ (a + b) := by
  intro n
  induction n with
  | zero =>
    intro a b x y h
    have ha : a = 0 := by omega
    have hb : b = 0 := by omega
    subst ha; subst hb
    show mapLinearToInterleaved x y 0 0 < 2 ^ 0
    rw [il_00]
    norm_num
  | succ n ih =>
    intro a b x y h
    match a, b with
    | 0, 0 => rw [il_00]; norm_num
    | a + 1, 0 =>
      have hih := ih a 0 (x / 2) y (by omega)
      rw [il_x0]
      have hx2 : x % 2 ≤ 1 := by omega
      have hone : (2 : Nat) ^ (a + 1 + 0) = 2 * 2 ^ (a + 0) := by ring
      omega
    | 0, b + 1 =>
      have hih := ih 0 b x (y / 2) (by omega)
      rw [il_y0]
      have hy2 : y % 2 ≤ 1 := by omega
      have hone : (2 : Nat) ^ (0 + (b + 1)) = 2 * 2 ^ (0 + b) := by ring
      omega
    | a + 1, b + 1 =>
      have hih := ih a b (x / 2) (y / 2) (by omega)
      rw [il_xy]
      have hx2 : x % 2 ≤ 1 := by omega
      have hy2 : y % 2 ≤ 1 := by omega
      have hone : (2 : Nat) ^ (a + 1 + (b + 1)) = 4 * 2 ^ (a + b) := by ring
      omega

theorem il_lt (a b x y : Nat) : mapLinearToInterleaved x y a b < 2 ^ (a + b) :=
  il_lt_aux (a + b) a b x y (le_refl _)

theorem il_mod_aux : ∀ n a b x y, a + b ≤ n →
    mapLinearToInterleaved x y a b
      = mapLinearToInterleaved (x % 2 ^ a) (y % 2 ^ b) a b := by
  intro n
  induction n with
  | zero =>
    intro a b x y h
    have ha : a = 0 := by omega
    have hb : b = 0 := by omega
    subst ha; subst hb
    rw [il_00, il_00]
  | succ n ih =>
    intro a b x y h
    match a, b with
    | 0, 0 => rw [il_00, il_00]
    | a + 1, 0 =>
      rw [il_x0, il_x0, ih a 0 (x / 2) y (by omega),
        Nat.mod_mod_of_dvd x ⟨2 ^ a, by rw [pow_succ, Nat.mul_comm]⟩,
        mod_two_pow_succ_div_two]
    | 0, b + 1 =>
      rw [il_y0, il_y0, ih 0 b x (y / 2) (by omega),
        Nat.mod_mod_of_dvd y ⟨2 ^ b, by rw [pow_succ, Nat.mul_comm]⟩,
        mod_two_pow_succ_div_two]
    | a + 1, b + 1 =>
      rw [il_xy, il_xy, ih a b (x / 2) (y / 2) (by omega),
        Nat.mod_mod_of_dvd x ⟨2 ^ a, by rw [pow_succ, Nat.mul_comm]⟩,
        Nat.mod_mod_of_dvd y ⟨2 ^ b, by rw [pow_succ, Nat.mul_comm]⟩,
        mod_two_pow_succ_div_two, mod_two_pow_succ_div_two]

theorem il_mod (a b x y : Nat) :
    mapLinearToInterleaved x y a b = mapLinearToInterleaved (x % 2 ^ a) (y % 2 ^ b) a b :=
  il_mod_aux (a + b) a b x y (le_refl _)

theorem il_inj_aux : ∀ n a b x1 y1 x2 y2, a + b ≤ n →
    x1 < 2 ^ a → y1 < 2 ^ b → x2 < 2 ^ a → y2 < 2 ^ b →
    mapLinearToInterleaved x1 y1 a b = mapLinearToInterleaved x2 y2 a b →
    x1 = x2 ∧ y1 = y2 := by
  intro n
  induction n with
  | zero =>
    intro a b x1 y1 x2 y2 h hx1 hy1 hx2 hy2 _
    have ha : a = 0 := by omega
    have hb : b = 0 := by omega
    subst ha; subst hb
    have h0 : (2 : Nat) ^ 0 = 1 := rfl
    omega
  | succ n ih =>
    intro a b x1 y1 x2 y2 h hx1 hy1 hx2 hy2 heq
    match a, b with
    | 0, 0 =>
      have h0 : (2 : Nat) ^ 0 = 1 := rfl
      omega
    | a + 1, 0 =>
      have h0 : (2 : Nat) ^ 0 = 1 := rfl
      have hp : (2 : Nat) ^ (a + 1) = 2 * 2 ^ a := by rw [pow_succ, Nat.mul_comm]
      rw [il_x0, il_x0] at heq
      have hpar : x1 % 2 = x2 % 2 ∧
          mapLinearToInterleaved (x1 / 2) y1 a 0 = mapLinearToInterleaved (x2 / 2) y2 a 0 := by
        omega
      have hrec := ih a 0 (x1 / 2) y1 (x2 / 2) y2 (by omega) (by omega) hy1 (by omega) hy2
        hpar.2
      omega
    | 0, b + 1 =>
      have h0 : (2 : Nat) ^ 0 = 1 := rfl
      have hp : (2 : Nat) ^ (b + 1) = 2 * 2 ^ b := by rw [pow_succ, Nat.mul_comm]
      rw [il_y0, il_y0] at heq
      have hpar : y1 % 2 = y2 % 2 ∧
          mapLinearToInterleaved x1 (y1 / 2) 0 b = mapLinearToInterleaved x2 (y2 / 2) 0 b := by
        omega
      have hrec := ih 0 b x1 (y1 / 2) x2 (y2 / 2) (by omega) hx1 (by omega) hx2 (by omega)
        hpar.2
      omega
    | a + 1, b + 1 =>
      have hpa : (2 : Nat) ^ (a + 1) = 2 * 2 ^ a := by rw [pow_succ, Nat.mul_comm]
      have hpb : (2 : Nat) ^ (b + 1) = 2 * 2 ^ b := by rw [pow_succ, Nat.mul_comm]
      rw [il_xy, il_xy] at heq
      have hpar : x1 % 2 = x2 % 2 ∧ y1 % 2 = y2 % 2 ∧
          mapLinearToInterleaved (x1 / 2) (y1 / 2) a b
            = mapLinearToInterleaved (x2 / 2) (y2 / 2) a b := by
        omega
      have hrec := ih a b (x1 / 2) (y1 / 2) (x2 / 2) (y2 / 2) (by omega) (by omega) (by omega)
        (by omega) (by omega) hpar.2.2
      omega

theorem il_inj {a b x1 y1 x2 y2 : Nat} (hx1 : x1 < 2 ^ a) (hy1 : y1 < 2 ^ b)
    (hx2 : x2 < 2 ^ a) (hy2 : y2 < 2 ^ b)
    (heq : mapLinearToInterleaved x1 y1 a b = mapLinearToInterleaved x2 y2 a b) :
    x1 = x2 ∧ y1 = y2 :=
  il_inj_aux (a + b) a b x1 y1 x2 y2 (le_refl _) hx1 hy1 hx2 hy2 heq

/-! ### The inverse interleave -/

theorem deilGo_zero_budget (f o : Nat) : deilGo f o 0 0 = (0, 0) := by cases f <;> rfl

theorem deilGo_fuel (f1 : Nat) : ∀ f2 o a b, a + b ≤ f1 → a + b ≤ f2 →
    deilGo f1 o a b = deilGo f2 o a b := by
  induction f1 with
  | zero =>
    intro f2 o a b h1 _
    have ha : a = 0 := by omega
    have hb : b = 0 := by omega
    subst ha; subst hb
    rw [deilGo_zero_budget, deilGo_zero_budget]
  | succ f1 ih =>
    intro f2 o a b h1 h2
    match f2, a, b with
    | 0, a, b =>
      have ha : a = 0 := by omega
      have hb : b = 0 := by omega
      subst ha; subst hb
      rw [deilGo_zero_budget, deilGo_zero_budget]
    | f2 + 1, 0, 0 => rfl
    | f2 + 1, aX + 1, 0 =>
      show (o % 2 + 2 * (deilGo f1 (o / 2) aX 0).1, (deilGo f1 (o / 2) aX 0).2)
          = (o % 2 + 2 * (deilGo f2 (o / 2) aX 0).1, (deilGo f2 (o / 2) aX 0).2)
      rw [ih f2 (o / 2) aX 0 (by omega) (by omega)]
    | f2 + 1, 0, bY + 1 =>
      show ((deilGo f1 (o / 2) 0 bY).1, o % 2 + 2 * (deilGo f1 (o / 2) 0 bY).2)
          = ((deilGo f2 (o / 2) 0 bY).1, o % 2 + 2 * (deilGo f2 (o / 2) 0 bY).2)
      rw [ih f2 (o / 2) 0 bY (by omega) (by omega)]
    | f2 + 1, aX + 1, bY + 1 =>
      show (o % 2 + 2 * (deilGo f1 (o / 4) aX bY).1,
            o / 2 % 2 + 2 * (deilGo f1 (o / 4) aX bY).2)
          = (o % 2 + 2 * (deilGo f2 (o / 4) aX bY).1,
             o / 2 % 2 + 2 * (deilGo f2 (o / 4) aX bY).2)
      rw [ih f2 (o / 4) aX bY (by omega) (by omega)]

theorem deil_00 (o : Nat) : unInterleave o 0 0 = (0, 0) := rfl

theorem deil_x0 (o a : Nat) :
    unInterleave o (a + 1) 0
      = (o % 2 + 2 * (unInterleave (o / 2) a 0).1, (unInterleave (o / 2) a 0).2) := by
  unfold unInterleave
  rfl

theorem deil_y0 (o b : Nat) :
    unInterleave o 0 (b + 1)
      = ((unInterleave (o / 2) 0 b).1, o % 2 + 2 * (unInterleave (o / 2) 0 b).2) := by
  unfold unInterleave
  rw [show 0 + (b + 1) = b + 1 by ring]
  show ((deilGo b (o / 2) 0 b).1, o % 2 + 2 * (deilGo b (o / 2) 0 b).2) = _
  rw [deilGo_fuel b (0 + b) (o / 2) 0 b (by omega) (by omega)]

theorem deil_xy (o a b : Nat) :
    unInterleave o (a + 1) (b + 1)
      = (o % 2 + 2 * (unInterleave (o / 4) a b).1,
         o / 2 % 2 + 2 * (unInterleave (o / 4) a b).2) := by
  unfold unInterleave
  rw [show a + 1 + (b + 1) = a + b + 1 + 1 by ring]
  show (o % 2 + 2 * (deilGo (a + b + 1) (o / 4) a b).1,
        o / 2 % 2 + 2 * (deilGo (a + b + 1) (o / 4) a b).2) = _
  rw [deilGo_fuel (a + b + 1) (a + b) (o / 4) a b (by omega) (by omega)]

theorem il_deil_aux : ∀ n a b o, a + b ≤ n → o < 2 ^ (a + b) →
    mapLinearToInterleaved (unInterleave o a b).1 (unInterleave o a b).2 a b = o ∧
    (unInterleave o a b).1 < 2 ^ a ∧ (unInterleave o a b).2 < 2 ^ b := by
  intro n
  induction n with
  | zero =>
    intro a b o h ho
    have ha : a = 0 := by omega
    have hb : b = 0 := by omega
    subst ha; subst hb
    have h0 : (2 : Nat) ^ 0 = 1 := rfl
    rw [deil_00]
    refine ⟨?_, by omega, by omega⟩
    rw [il_00]
    omega
  | succ n ih =>
    intro a b o h ho
    match a, b with
    | 0, 0 =>
      have h0 : (2 : Nat) ^ 0 = 1 := rfl
      rw [deil_00]
      refine ⟨?_, by omega, by omega⟩
      rw [il_00]
      omega
    | a + 1, 0 =>
      have hp : (2 : Nat) ^ (a + 1 + 0) = 2 * 2 ^ (a + 0) := by ring
      have hpa : (2 : Nat) ^ (a + 1) = 2 * 2 ^ a := by ring
      have hrec := ih a 0 (o / 2) (by omega) (by omega)
      rw [deil_x0]
      simp only
      refine ⟨?_, by omega, hrec.2.2⟩
      rw [il_x0]
      have hm : (o % 2 + 2 * (unInterleave (o / 2) a 0).1) % 2 = o % 2 := by omega
      have hd : (o % 2 + 2 * (unInterleave (o / 2) a 0).1) / 2
          = (unInterleave (o / 2) a 0).1 := by omega
      rw [hm, hd, hrec.1]
      omega
    | 0, b + 1 =>
      have hp : (2 : Nat) ^ (0 + (b + 1)) = 2 * 2 ^ (0 + b) := by ring
      have hpb : (2 : Nat) ^ (b + 1) = 2 * 2 ^ b := by ring
      have hrec := ih 0 b (o / 2) (by omega) (by omega)
      rw [deil_y0]
      simp only
      refine ⟨?_, hrec.2.1, by omega⟩
      rw [il_y0]
      have hm : (o % 2 + 2 * (unInterleave (o / 2) 0 b).2) % 2 = o % 2 := by omega
      have hd : (o % 2 + 2 * (unInterleave (o / 2) 0 b).2) / 2
          = (unInterleave (o / 2) 0 b).2 := by omega
      rw [hm, hd, hrec.1]
      omega
    | a + 1, b + 1 =>
      have hp : (2 : Nat) ^ (a + 1 + (b + 1)) = 4 * 2 ^ (a + b) := by ring
      have hpa : (2 : Nat) ^ (a + 1) = 2 * 2 ^ a := by ring
      have hpb : (2 : Nat) ^ (b + 1) = 2 * 2 ^ b := by ring
      have hrec := ih a b (o / 4) (by omega) (by omega)
      rw [deil_xy]
      simp only
      refine ⟨?_, by omega, by omega⟩
      rw [il_xy]
      have hm1 : (o % 2 + 2 * (unInterleave (o / 4) a b).1) % 2 = o % 2 := by omega
      have hd1 : (o % 2 + 2 * (unInterleave (o / 4) a b).1) / 2
          = (unInterleave (o / 4) a b).1 := by omega
      have hm2 : (o / 2 % 2 + 2 * (unInterleave (o / 4) a b).2) % 2 = o / 2 % 2 := by omega
      have hd2 : (o / 2 % 2 + 2 * (unInterleave (o / 4) a b).2) / 2
          = (unInterleave (o / 4) a b).2 := by omega
      rw [hm1, hd1, hm2, hd2, hrec.1]
      omega

theorem il_deil {a b o : Nat} (ho : o < 2 ^ (a + b)) :
    mapLinearToInterleaved (unInterleave o a b).1 (unInterleave o a b).2 a b = o ∧
    (unInterleave o a b).1 < 2 ^ a ∧ (unInterleave o a b).2 < 2 ^ b :=
  il_deil_aux (a + b) a b o (le_refl _) ho

/-! ### Spread form of the interleave map -/

theorem il_x_only : ∀ a x y, x < 2 ^ a → mapLinearToInterleaved x y a 0 = x := by
  intro a
  induction a with
  | zero =>
    intro x y hx
    have h0 : (2 : Nat) ^ 0 = 1 := rfl
    rw [il_00]
    omega
  | succ a ih =>
    intro x y hx
    have hp : (2 : Nat) ^ (a + 1) = 2 * 2 ^ a := by ring
    rw [il_x0, ih (x / 2) y (by omega)]
    omega

theorem il_y_only : ∀ b x y, y < 2 ^ b → mapLinearToInterleaved x y 0 b = y := by
  intro b
  induction b with
  | zero =>
    intro x y hy
    have h0 : (2 : Nat) ^ 0 = 1 := rfl
    rw [il_00]
    omega
  | succ b ih =>
    intro x y hy
    have hp : (2 : Nat) ^ (b + 1) = 2 * 2 ^ b := by ring
    rw [il_y0, ih x (y / 2) (by omega)]
    omega

theorem il_spread_wide : ∀ m s x y, x < 2 ^ (m + s) → y < 2 ^ m →
    mapLinearToInterleaved x y (m + s) m
      = sE m x + 2 * sE m y + x / 2 ^ m * 4 ^ m := by
  intro m
  induction m with
  | zero =>
    intro s x y hx hy
    have h0 : (2 : Nat) ^ 0 = 1 := rfl
    have hy0 : y = 0 := by omega
    subst hy0
    have hx2 : x < 2 ^ s := by
      rw [show (0 : Nat) + s = s by omega] at hx
      exact hx
    rw [show (0 : Nat) + s = s by omega, il_x_only s x 0 hx2]
    simp [sE]
  | succ m ih =>
    intro s x y hx hy
    have hsx : sE (m + 1) x = x % 2 + 4 * sE m (x / 2) := rfl
    have hsy : sE (m + 1) y = y % 2 + 4 * sE m (y / 2) := rfl
    have hpx : (2 : Nat) ^ (m + 1 + s) = 2 * 2 ^ (m + s) := by ring
    have hpy : (2 : Nat) ^ (m + 1) = 2 * 2 ^ m := by ring
    rw [show m + 1 + s = (m + s) + 1 by ring] at hx ⊢
    rw [il_xy, ih s (x / 2) (y / 2) (by omega) (by omega)]
    have hq : x / 2 ^ (m + 1) * 4 ^ (m + 1) = 4 * (x / 2 / 2 ^ m * 4 ^ m) := by
      rw [div_two_pow_succ, pow_succ]
      ring
    rw [hsx, hsy, hq]
    generalize x / 2 / 2 ^ m * 4 ^ m = P
    ring

theorem il_spread_tall : ∀ m s x y, x < 2 ^ m → y < 2 ^ (m + s) →
    mapLinearToInterleaved x y m (m + s)
      = sE m x + 2 * sE m y + y / 2 ^ m * 4 ^ m := by
  intro m
  induction m with
  | zero =>
    intro s x y hx hy
    have h0 : (2 : Nat) ^ 0 = 1 := rfl
    have hx0 : x = 0 := by omega
    subst hx0
    have hy2 : y < 2 ^ s := by
      rw [show (0 : Nat) + s = s by omega] at hy
      exact hy
    rw [show (0 : Nat) + s = s by omega, il_y_only s 0 y hy2]
    simp [sE]
  | succ m ih =>
    intro s x y hx hy
    have hsx : sE (m + 1) x = x % 2 + 4 * sE m (x / 2) := rfl
    have hsy : sE (m + 1) y = y % 2 + 4 * sE m (y / 2) := rfl
    have hpx : (2 : Nat) ^ (m + 1) = 2 * 2 ^ m := by ring
    have hpy : (2 : Nat) ^ (m + 1 + s) = 2 * 2 ^ (m + s) := by ring
    rw [show m + 1 + s = (m + s) + 1 by ring] at hy ⊢
    rw [il_xy, ih s (x / 2) (y / 2) (by omega) (by omega)]
    have hq : y / 2 ^ (m + 1) * 4 ^ (m + 1) = 4 * (y / 2 / 2 ^ m * 4 ^ m) := by
      rw [div_two_pow_succ, pow_succ]
      ring
    rw [hsx, hsy, hq]
    generalize y / 2 / 2 ^ m * 4 ^ m = P
    ring

theorem il_spread (a b x y : Nat) (hx : x < 2 ^ a) (hy : y < 2 ^ b) :
    mapLinearToInterleaved x y a b
      = sE (min a b) x + 2 * sE (min a b) y
        + (x / 2 ^ min a b + y / 2 ^ min a b) * 4 ^ min a b := by
  rcases Nat.le_total a b with hab | hab
  · have hm : min a b = a := min_eq_left hab
    rw [hm]
    have hb' : b = a + (b - a) := by omega
    rw [hb'] at hy
    rw [show mapLinearToInterleaved x y a b = mapLinearToInterleaved x y a (a + (b - a)) from by
      rw [← hb']]
    rw [il_spread_tall a (b - a) x y hx hy]
    have hx0 : x / 2 ^ a = 0 := Nat.div_eq_of_lt hx
    rw [hx0]
    ring
  · have hm : min a b = b := min_eq_right hab
    rw [hm]
    have ha' : a = b + (a - b) := by omega
    rw [ha'] at hx
    rw [show mapLinearToInterleaved x y a b = mapLinearToInterleaved x y (b + (a - b)) b from by
      rw [← ha']]
    rw [il_spread_wide b (a - b) x y hx hy]
    have hy0 : y / 2 ^ b = 0 := Nat.div_eq_of_lt hy
    rw [hy0]
    ring

/-! ### The source mapper equals the interleave map -/

theorem or3_ne_zero_left {a b c : Nat} (h : a ≠ 0) : a ||| b ||| c ≠ 0 := by
  intro h0
  have h1 := (or_eq_zero_parts h0).1
  exact h (or_eq_zero_parts h1).1

theorem or3_ne_zero_mid {a b c : Nat} (h : b ≠ 0) : a ||| b ||| c ≠ 0 := by
  intro h0
  have h1 := (or_eq_zero_parts h0).1
  exact h (or_eq_zero_parts h1).2

theorem l2s_go_step_x (fuel x y z a off sh : Nat) :
    l2s_go (fuel + 1) x y z (a + 1) 0 0 off sh
      = l2s_go fuel (x >>> 1) y z a 0 0 (off ||| ((x &&& 1) <<< sh)) (sh + 1) := by
  have hc : ¬ ((a + 1) ||| 0 ||| 0 = 0) := or3_ne_zero_left (Nat.succ_ne_zero a)
  simp only [l2s_go]
  rw [if_neg hc]
  simp

theorem l2s_go_step_y (fuel x y z b off sh : Nat) :
    l2s_go (fuel + 1) x y z 0 (b + 1) 0 off sh
      = l2s_go fuel x (y >>> 1) z 0 b 0 (off ||| ((y &&& 1) <<< sh)) (sh + 1) := by
  have hc : ¬ ((0 : Nat) ||| (b + 1) ||| 0 = 0) := or3_ne_zero_mid (Nat.succ_ne_zero b)
  simp only [l2s_go]
  rw [if_neg hc]
  simp

theorem l2s_go_step_xy (fuel x y z a b off sh : Nat) :
    l2s_go (fuel + 1) x y z (a + 1) (b + 1) 0 off sh
      = l2s_go fuel (x >>> 1) (y >>> 1) z a b 0
          ((off ||| ((x &&& 1) <<< sh)) ||| ((y &&& 1) <<< (sh + 1))) (sh + 2) := by
  have hc : ¬ ((a + 1) ||| (b + 1) ||| 0 = 0) := or3_ne_zero_left (Nat.succ_ne_zero a)
  simp only [l2s_go]
  rw [if_neg hc]
  simp

theorem l2s_go_il : ∀ fuel a b x y z off sh, a + b ≤ fuel → off < 2 ^ sh →
    l2s_go fuel x y z a b 0 off sh = off + 2 ^ sh * mapLinearToInterleaved x y a b := by
  intro fuel
  induction fuel with
  | zero =>
    intro a b x y z off sh h hoff
    have ha : a = 0 := by omega
    have hb : b = 0 := by omega
    subst ha; subst hb
    show off = off + 2 ^ sh * mapLinearToInterleaved x y 0 0
    rw [il_00]
    ring
  | succ fuel ih =>
    intro a b x y z off sh h hoff
    match a, b with
    | 0, 0 =>
      have hc : (0 : Nat) ||| 0 ||| 0 = 0 := by decide
      show l2s_go (fuel + 1) x y z 0 0 0 off sh = _
      simp only [l2s_go]
      rw [if_pos hc, il_00]
      ring
    | a + 1, 0 =>
      rw [l2s_go_step_x]
      have hx1 : (x &&& 1) <<< sh = 2 ^ sh * (x % 2) := by
        rw [Nat.and_one_is_mod, Nat.shiftLeft_eq, Nat.mul_comm]
      rw [hx1, or_disj off hoff]
      have hoff2 : 2 ^ sh * (x % 2) + off < 2 ^ (sh + 1) := by
        have hxle : x % 2 ≤ 1 := by omega
        have h3 : 2 ^ sh * (x % 2) ≤ 2 ^ sh * 1 := Nat.mul_le_mul_left _ hxle
        rw [Nat.mul_one] at h3
        have h2 : (2 : Nat) ^ (sh + 1) = 2 * 2 ^ sh := by ring
        generalize 2 ^ sh * (x % 2) = P at h3 ⊢
        omega
      rw [ih a 0 (x >>> 1) y z _ (sh + 1) (by omega) hoff2]
      have hxs : x >>> 1 = x / 2 := by
        rw [Nat.shiftRight_eq_div_pow]
      rw [hxs, il_x0, pow_succ]
      ring
    | 0, b + 1 =>
      rw [l2s_go_step_y]
      have hy1 : (y &&& 1) <<< sh = 2 ^ sh * (y % 2) := by
        rw [Nat.and_one_is_mod, Nat.shiftLeft_eq, Nat.mul_comm]
      rw [hy1, or_disj off hoff]
      have hoff2 : 2 ^ sh * (y % 2) + off < 2 ^ (sh + 1) := by
        have hyle : y % 2 ≤ 1 := by omega
        have h3 : 2 ^ sh * (y % 2) ≤ 2 ^ sh * 1 := Nat.mul_le_mul_left _ hyle
        rw [Nat.mul_one] at h3
        have h2 : (2 : Nat) ^ (sh + 1) = 2 * 2 ^ sh := by ring
        generalize 2 ^ sh * (y % 2) = P at h3 ⊢
        omega
      rw [ih 0 b x (y >>> 1) z _ (sh + 1) (by omega) hoff2]
      have hys : y >>> 1 = y / 2 := by
        rw [Nat.shiftRight_eq_div_pow]
      rw [hys, il_y0, pow_succ]
      ring
    | a + 1, b + 1 =>
      rw [l2s_go_step_xy]
      have hx1 : (x &&& 1) <<< sh = 2 ^ sh * (x % 2) := by
        rw [Nat.and_one_is_mod, Nat.shiftLeft_eq, Nat.mul_comm]
      have hy1 : (y &&& 1) <<< (sh + 1) = 2 ^ (sh + 1) * (y % 2) := by
        rw [Nat.and_one_is_mod, Nat.shiftLeft_eq, Nat.mul_comm]
      rw [hx1, or_disj off hoff]
      have hoff1 : 2 ^ sh * (x % 2) + off < 2 ^ (sh + 1) := by
        have hxle : x % 2 ≤ 1 := by omega
        have h3 : 2 ^ sh * (x % 2) ≤ 2 ^ sh * 1 := Nat.mul_le_mul_left _ hxle
        rw [Nat.mul_one] at h3
        have h2 : (2 : Nat) ^ (sh + 1) = 2 * 2 ^ sh := by ring
        generalize 2 ^ sh * (x % 2) = P at h3 ⊢
        omega
      rw [hy1, or_disj _ hoff1]
      have hoff2 : 2 ^ (sh + 1) * (y % 2) + (2 ^ sh * (x % 2) + off) < 2 ^ (sh + 1 + 1) := by
        have hyle : y % 2 ≤ 1 := by omega
        have h3 : 2 ^ (sh + 1) * (y % 2) ≤ 2 ^ (sh + 1) * 1 := Nat.mul_le_mul_left _ hyle
        rw [Nat.mul_one] at h3
        have h2 : (2 : Nat) ^ (sh + 1 + 1) = 2 * 2 ^ (sh + 1) := by ring
        generalize 2 ^ (sh + 1) * (y % 2) = P at h3 ⊢
        generalize 2 ^ sh * (x % 2) + off = Q at hoff1 ⊢
        omega
      rw [show sh + 2 = sh + 1 + 1 by ring]
      rw [ih a b (x >>> 1) (y >>> 1) z _ (sh + 1 + 1) (by omega) hoff2]
      have hxs : x >>> 1 = x / 2 := by
        rw [Nat.shiftRight_eq_div_pow]
      have hys : y >>> 1 = y / 2 := by
        rw [Nat.shiftRight_eq_div_pow]
      rw [hxs, hys, il_xy, pow_succ, pow_succ]
      ring

/-- The source's `linear_to_swizzle` with zero depth computes exactly the
canonical interleave of its two coordinates. -/
theorem linear_to_swizzle_eq_il (x y a b : Nat) :
    linear_to_swizzle x y 0 a b 0 = mapLinearToInterleaved x y a b := by
  unfold linear_to_swizzle
  rw [l2s_go_il (a + b + 0) a b x y 0 0 0 (by omega) (by norm_num)]
  simp

/-! ### The fast swizzler's masks and its offset formula -/

theorem ite_lt_min (a b : Nat) : (if a < b then a else b) = min a b := by
  rcases Nat.lt_or_ge a b with h | h
  · rw [if_pos h, min_eq_left (le_of_lt h)]
  · rw [if_neg (Nat.not_lt.mpr h), min_eq_right h]

theorem x_mask_eq : ∀ mu : Nat, mu ≤ 15 →
    (0x555555 ||| compl32 (4 ^ mu - 1) : Nat) = ev (min mu 12) + (2 ^ 32 - 4 ^ mu) := by
  decide

theorem y_mask_eq : ∀ mu : Nat, mu ≤ 15 →
    (0xAAAAAA &&& (4 ^ mu - 1) : Nat) = 2 * ev (min mu 12) := by
  decide

/-- Master formula for the incremental offset of the fast swizzler on a
`2^a` by `2^b` surface: y-lane spread plus carries plus x-lane spread.
The lane holds `min (min a b) 12` interleaved bit pairs: the alternating
mask constants only cover 24 bits, so the lane saturates at 12 pairs. -/
theorem fastOffset_spread (a b x y : Nat) (ha : a ≤ 15) (hb : b ≤ 15)
    (hov : (y / 2 ^ min (min a b) 12 + x / 2 ^ min (min a b) 12 + 1) * 4 ^ min a b
      < 2 ^ 32) :
    fastOffset (2 ^ a) (2 ^ b) x y
      = 2 * sE (min (min a b) 12) y
        + ((y / 2 ^ min (min a b) 12 + x / 2 ^ min (min a b) 12) * 4 ^ min a b
           + sE (min (min a b) 12) x) := by
  have hmu : min a b ≤ 15 := by omega
  have hm12 : min (min a b) 12 ≤ min a b := by omega
  simp only [fastOffset]
  rw [Nat.log2_two_pow, Nat.log2_two_pow, ite_lt_min a b, shiftLeft_double_one (min a b),
    x_mask_eq (min a b) hmu, y_mask_eq (min a b) hmu,
    fastRowState_spread (min (min a b) 12) (4 ^ min a b) (by omega) y]
  simp only
  rw [iterate_maskStep_x (min (min a b) 12) (min a b) (y / 2 ^ min (min a b) 12)
    hm12 (by omega) x hov]

/-- In the supported regime (smaller dimension at most `2^12`) the fast
incremental offset coincides with the canonical interleave. -/
theorem fastOffset_eq_il (a b x y : Nat) (ha : a ≤ 15) (hb : b ≤ 15) (hmin : min a b ≤ 12)
    (hx : x < 2 ^ a) (hy : y < 2 ^ b) :
    fastOffset (2 ^ a) (2 ^ b) x y = mapLinearToInterleaved x y a b := by
  have hm : min (min a b) 12 = min a b := min_eq_left hmin
  have hov : (y / 2 ^ min (min a b) 12 + x / 2 ^ min (min a b) 12 + 1) * 4 ^ min a b
      < 2 ^ 32 := by
    rw [hm]
    rcases Nat.le_total a b with hab | hab
    · have hmueq : min a b = a := min_eq_left hab
      rw [hmueq]
      have hx0 : x / 2 ^ a = 0 := Nat.div_eq_of_lt hx
      have hyd : y / 2 ^ a ≤ 2 ^ (b - a) - 1 := by
        have h1 : y ≤ 2 ^ b - 1 := by omega
        calc y / 2 ^ a ≤ (2 ^ b - 1) / 2 ^ a := Nat.div_le_div_right h1
        _ = 2 ^ (b - a) - 1 := two_pow_sub_one_div hab
      have hba : 0 < 2 ^ (b - a) := Nat.two_pow_pos _
      have heq : 2 ^ (b - a) * 4 ^ a = 2 ^ (a + b) := by
        rw [four_pow, ← pow_add]
        congr 1
        omega
      have hsz : (2 : Nat) ^ (a + b) < 2 ^ 32 := by
        have hab32 : a + b < 32 := by omega
        exact Nat.pow_lt_pow_right (by norm_num) hab32
      rw [hx0]
      calc (y / 2 ^ a + 0 + 1) * 4 ^ a
          ≤ 2 ^ (b - a) * 4 ^ a := Nat.mul_le_mul_right _ (by omega)
      _ = 2 ^ (a + b) := heq
      _ < 2 ^ 32 := hsz
    · have hmueq : min a b = b := min_eq_right hab
      rw [hmueq]
      have hy0 : y / 2 ^ b = 0 := Nat.div_eq_of_lt hy
      have hxd : x / 2 ^ b ≤ 2 ^ (a - b) - 1 := by
        have h1 : x ≤ 2 ^ a - 1 := by omega
        calc x / 2 ^ b ≤ (2 ^ a - 1) / 2 ^ b := Nat.div_le_div_right h1
        _ = 2 ^ (a - b) - 1 := two_pow_sub_one_div hab
      have hba : 0 < 2 ^ (a - b) := Nat.two_pow_pos _
      have heq : 2 ^ (a - b) * 4 ^ b = 2 ^ (a + b) := by
        rw [four_pow, ← pow_add]
        congr 1
        omega
      have hsz : (2 : Nat) ^ (a + b) < 2 ^ 32 := by
        have hab32 : a + b < 32 := by omega
        exact Nat.pow_lt_pow_right (by norm_num) hab32
      rw [hy0]
      calc (0 + x / 2 ^ b + 1) * 4 ^ b
          ≤ 2 ^ (a - b) * 4 ^ b := Nat.mul_le_mul_right _ (by omega)
      _ = 2 ^ (a + b) := heq
      _ < 2 ^ 32 := hsz
  have h1 := fastOffset_spread a b x y ha hb hov
  rw [hm] at h1
  rw [h1, il_spread a b x y hx hy]
  ring

/-! ### Buffers as functions: folds of writes -/

theorem writeAt_same (buf : Nat → Nat) (i v : Nat) : writeAt buf i v i = v := by
  simp [writeAt]

theorem writeAt_ne (buf : Nat → Nat) {i j : Nat} (v : Nat) (h : j ≠ i) :
    writeAt buf i v j = buf j := by
  simp [writeAt, h]

theorem foldl_writeAt_ne (idx val : Nat → Nat) :
    ∀ (l : List Nat) (d : Nat → Nat) (i : Nat), (∀ x ∈ l, idx x ≠ i) →
    (l.foldl (fun d x => writeAt d (idx x) (val x)) d) i = d i := by
  intro l
  induction l with
  | nil =>
    intro d i _
    rfl
  | cons a t ih =>
    intro d i h
    show (t.foldl _ (writeAt d (idx a) (val a))) i = d i
    rw [ih (writeAt d (idx a) (val a)) i (fun x hx => h x (List.mem_cons_of_mem a hx))]
    exact writeAt_ne d (val a) (fun he => (h a (List.mem_cons_self a t)) he.symm)

theorem foldl_writeAt_eq (idx val : Nat → Nat) :
    ∀ (l : List Nat) (d : Nat → Nat) (x : Nat), x ∈ l →
    (∀ x2 ∈ l, idx x2 = idx x → x2 = x) →
    (l.foldl (fun d x => writeAt d (idx x) (val x)) d) (idx x) = val x := by
  intro l
  induction l with
  | nil =>
    intro d x hx
    simp at hx
  | cons a t ih =>
    intro d x hx huniq
    show (t.foldl _ (writeAt d (idx a) (val a))) (idx x) = val x
    by_cases hxt : x ∈ t
    · exact ih _ x hxt (fun x2 h2 he => huniq x2 (List.mem_cons_of_mem a h2) he)
    · have hxa : x = a := by
        rcases List.mem_cons.mp hx with h | h
        · exact h
        · exact absurd h hxt
      subst hxa
      rw [foldl_writeAt_ne idx val t _ (idx x) ?_]
      · exact writeAt_same d (idx x) (val x)
      · intro x2 h2 he
        have hx2 := huniq x2 (List.mem_cons_of_mem x h2) he
        subst hx2
        exact absurd h2 hxt

theorem foldl_state_write (g : Nat → Nat) (I V : Nat → Nat → Nat) :
    ∀ (w : Nat) (o : Nat) (d : Nat → Nat),
    ((List.range w).foldl (fun (p : Nat × (Nat → Nat)) x =>
        (g p.1, writeAt p.2 (I p.1 x) (V p.1 x))) (o, d))
      = (g^[w] o,
         (List.range w).foldl
           (fun d x => writeAt d (I (g^[x] o) x) (V (g^[x] o) x)) d) := by
  intro w
  induction w with
  | zero =>
    intro o d
    rfl
  | succ w ih =>
    intro o d
    rw [List.range_succ, List.foldl_append, List.foldl_append, ih o d]
    simp only [List.foldl_cons, List.foldl_nil]
    rw [Function.iterate_succ_apply']

theorem write2_append (d : Nat → Nat) (idx val : Nat → Nat → Nat) (w : Nat)
    (l1 l2 : List Nat) :
    write2 d idx val w (l1 ++ l2) = write2 (write2 d idx val w l1) idx val w l2 := by
  unfold write2
  rw [List.foldl_append]

theorem write2_ne (idx val : Nat → Nat → Nat) (w : Nat) :
    ∀ (ys : List Nat) (d : Nat → Nat) (i : Nat),
    (∀ y ∈ ys, ∀ x, x < w → idx y x ≠ i) →
    write2 d idx val w ys i = d i := by
  intro ys
  induction ys with
  | nil =>
    intro d i _
    rfl
  | cons y t ih =>
    intro d i h
    show write2 ((List.range w).foldl _ d) idx val w t i = d i
    rw [ih _ i (fun y2 h2 => h y2 (List.mem_cons_of_mem y h2))]
    exact foldl_writeAt_ne (idx y) (val y) (List.range w) d i
      (fun x hx => h y (List.mem_cons_self y t) x (List.mem_range.mp hx))

theorem write2_eq (idx val : Nat → Nat → Nat) (w : Nat) :
    ∀ (pre : List Nat) (post : List Nat) (d : Nat → Nat) (y x : Nat), x < w →
    (∀ x2, x2 < w → idx y x2 = idx y x → x2 = x) →
    (∀ y2 ∈ post, ∀ x2, x2 < w → idx y2 x2 ≠ idx y x) →
    write2 d idx val w (pre ++ y :: post) (idx y x) = val y x := by
  intro pre
  induction pre with
  | nil =>
    intro post d y x hx huniq hpost
    show write2 ((List.range w).foldl _ d) idx val w post (idx y x) = val y x
    rw [write2_ne idx val w post _ _ hpost]
    exact foldl_writeAt_eq (idx y) (val y) (List.range w) d x (List.mem_range.mpr hx)
      (fun x2 h2 he => huniq x2 (List.mem_range.mp h2) he)
  | cons y0 t ih =>
    intro post d y x hx huniq hpost
    show write2 ((List.range w).foldl _ d) idx val w (t ++ y :: post) (idx y x) = val y x
    exact ih post _ y x hx huniq hpost

theorem range_split {y h : Nat} (hy : y < h) :
    List.range h
      = List.range y ++ y :: (List.range (h - y - 1)).map (fun j => y + 1 + j) := by
  conv_lhs => rw [show h = (y + 1) + (h - y - 1) by omega]
  rw [List.range_add, List.range_succ, List.append_assoc]
  rfl

theorem mem_range_split_post {y h y2 : Nat} (hy : y < h)
    (h2 : y2 ∈ (List.range (h - y - 1)).map (fun j => y + 1 + j)) :
    y < y2 ∧ y2 < h := by
  rcases List.mem_map.mp h2 with ⟨j, hj, rfl⟩
  have := List.mem_range.mp hj
  omega

/-! ### The transcoders as pure double loops of writes -/

theorem slowSwizzle_write2_false (src d : Nat → Nat) (w h : Nat) :
    slowSwizzle src d w h false
      = write2 d (fun y x => y * w + x)
          (fun y x => src (linear_to_swizzle x y 0 (Nat.log2 w) (Nat.log2 h) 0)) w
          (List.range h) := rfl

theorem slowSwizzle_write2_true (src d : Nat → Nat) (w h : Nat) :
    slowSwizzle src d w h true
      = write2 d (fun y x => linear_to_swizzle x y 0 (Nat.log2 w) (Nat.log2 h) 0)
          (fun y x => src (y * w + x)) w (List.range h) := rfl

theorem fast_outer_true (src : Nat → Nat) (w xm ym yi : Nat) :
    ∀ (n : Nat) (d : Nat → Nat),
    ((List.range n).foldl (fun (st : Nat × Nat × (Nat → Nat)) y =>
        let offs_y := st.1
        let offs_x0 := st.2.1
        let inner := (List.range w).foldl
          (fun (p : Nat × (Nat → Nat)) x =>
            (maskStep xm p.1, writeAt p.2 (offs_y + p.1) (src (y * w + x))))
          (offs_x0, st.2.2)
        let offs_y2 := maskStep ym offs_y
        (offs_y2, (if offs_y2 = 0 then offs_x0 + yi else offs_x0), inner.2))
      (0, 0, d))
    = ((fastRowState ym yi n).1, (fastRowState ym yi n).2,
       write2 d
         (fun y x => (fastRowState ym yi y).1 + (maskStep xm)^[x] (fastRowState ym yi y).2)
         (fun y x => src (y * w + x)) w (List.range n)) := by
  intro n
  induction n with
  | zero =>
    intro d
    rfl
  | succ n ih =>
    intro d
    rw [List.range_succ, List.foldl_append, ih d]
    simp only [List.foldl_cons, List.foldl_nil]
    rw [foldl_state_write (maskStep xm)
      (fun o _ => (fastRowState ym yi n).1 + o)
      (fun _ x => src (n * w + x)) w (fastRowState ym yi n).2 _]
    rw [write2_append]
    rfl

theorem fast_outer_false (src : Nat → Nat) (w xm ym yi : Nat) :
    ∀ (n : Nat) (d : Nat → Nat),
    ((List.range n).foldl (fun (st : Nat × Nat × (Nat → Nat)) y =>
        let offs_y := st.1
        let offs_x0 := st.2.1
        let inner := (List.range w).foldl
          (fun (p : Nat × (Nat → Nat)) x =>
            (maskStep xm p.1, writeAt p.2 (y * w + x) (src (offs_y + p.1))))
          (offs_x0, st.2.2)
        let offs_y2 := maskStep ym offs_y
        (offs_y2, (if offs_y2 = 0 then offs_x0 + yi else offs_x0), inner.2))
      (0, 0, d))
    = ((fastRowState ym yi n).1, (fastRowState ym yi n).2,
       write2 d (fun y x => y * w + x)
         (fun y x =>
           src ((fastRowState ym yi y).1 + (maskStep xm)^[x] (fastRowState ym yi y).2))
         w (List.range n)) := by
  intro n
  induction n with
  | zero =>
    intro d
    rfl
  | succ n ih =>
    intro d
    rw [List.range_succ, List.foldl_append, ih d]
    simp only [List.foldl_cons, List.foldl_nil]
    rw [foldl_state_write (maskStep xm)
      (fun _ x => n * w + x)
      (fun o _ => src ((fastRowState ym yi n).1 + o)) w (fastRowState ym yi n).2 _]
    rw [write2_append]
    rfl

theorem fastSwizzle_write2_true (src d : Nat → Nat) (w h : Nat) :
    fastSwizzle src d w h true
      = write2 d (fun y x => fastOffset w h x y) (fun y x => src (y * w + x)) w
          (List.range h) := by
  show (((List.range h).foldl _ (0, 0, d)) : Nat × Nat × (Nat → Nat)).2.2 = _
  rw [fast_outer_true src w _ _ _ h d]
  rfl

theorem fastSwizzle_write2_false (src d : Nat → Nat) (w h : Nat) :
    fastSwizzle src d w h false
      = write2 d (fun y x => y * w + x) (fun y x => src (fastOffset w h x y)) w
          (List.range h) := by
  show (((List.range h).foldl _ (0, 0, d)) : Nat × Nat × (Nat → Nat)).2.2 = _
  rw [fast_outer_false src w _ _ _ h d]
  rfl

/-! ### Pointwise characterization of both transcoders -/

theorem write2_linear_get (val : Nat → Nat → Nat) {w h y x : Nat} (d : Nat → Nat)
    (hx : x < w) (hy : y < h) :
    write2 d (fun y x => y * w + x) val w (List.range h) (y * w + x) = val y x := by
  rw [range_split hy]
  apply write2_eq (fun y x => y * w + x) val w (List.range y) _ d y x hx
  · intro x2 h2 he
    omega
  · intro y2 h2 x2 hx2 he
    have hb := mem_range_split_post hy h2
    have h1 : (y2 : Nat) * w = y2 * w := rfl
    have h2m : (y + 1) * w ≤ y2 * w := Nat.mul_le_mul_right w (by omega)
    have h3 : (y + 1) * w = y * w + w := by ring
    omega

theorem write2_linear_ne (val : Nat → Nat → Nat) {w h i : Nat} (d : Nat → Nat)
    (hi : w * h ≤ i) :
    write2 d (fun y x => y * w + x) val w (List.range h) i = d i := by
  apply write2_ne
  intro y hy x hx he
  have hy' := List.mem_range.mp hy
  have h2m : (y + 1) * w ≤ h * w := Nat.mul_le_mul_right w (by omega)
  have h3 : (y + 1) * w = y * w + w := by ring
  have h4 : h * w = w * h := Nat.mul_comm h w
  omega

/-- Reference transcoder, deswizzle direction: each linear cell receives the
element at its interleaved offset. -/
theorem slowSwizzle_deswizzle (src d : Nat → Nat) (w h y x : Nat)
    (hx : x < w) (hy : y < h) :
    slowSwizzle src d w h false (y * w + x)
      = src (linear_to_swizzle x y 0 (Nat.log2 w) (Nat.log2 h) 0) := by
  rw [slowSwizzle_write2_false]
  exact write2_linear_get _ d hx hy

/-- Reference transcoder, deswizzle direction: cells beyond the surface are
untouched. -/
theorem slowSwizzle_deswizzle_frame (src d : Nat → Nat) (w h i : Nat)
    (hi : w * h ≤ i) :
    slowSwizzle src d w h false i = d i := by
  rw [slowSwizzle_write2_false]
  exact write2_linear_ne _ d hi

/-- Fast transcoder, deswizzle direction: each linear cell receives the
element at its incremental offset. -/
theorem fastSwizzle_deswizzle (src d : Nat → Nat) (w h y x : Nat)
    (hx : x < w) (hy : y < h) :
    fastSwizzle src d w h false (y * w + x) = src (fastOffset w h x y) := by
  rw [fastSwizzle_write2_false]
  exact write2_linear_get _ d hx hy

theorem fastSwizzle_deswizzle_frame (src d : Nat → Nat) (w h i : Nat)
    (hi : w * h ≤ i) :
    fastSwizzle src d w h false i = d i := by
  rw [fastSwizzle_write2_false]
  exact write2_linear_ne _ d hi

/-- Reference transcoder, swizzle direction: on power-of-two surfaces the
cell at each interleaved offset receives the linear element.  Injectivity
of the interleave map makes the write unique. -/
theorem slowSwizzle_swizzle (src d : Nat → Nat) (a b y x : Nat)
    (hx : x < 2 ^ a) (hy : y < 2 ^ b) :
    slowSwizzle src d (2 ^ a) (2 ^ b) true (linear_to_swizzle x y 0 a b 0)
      = src (y * 2 ^ a + x) := by
  rw [slowSwizzle_write2_true]
  rw [show linear_to_swizzle x y 0 a b 0
      = linear_to_swizzle x y 0 (Nat.log2 (2 ^ a)) (Nat.log2 (2 ^ b)) 0 from by
    rw [Nat.log2_two_pow, Nat.log2_two_pow]]
  rw [range_split hy]
  apply write2_eq _ _ (2 ^ a) (List.range y) _ d y x hx
  · intro x2 h2 he
    rw [Nat.log2_two_pow, Nat.log2_two_pow, linear_to_swizzle_eq_il,
      linear_to_swizzle_eq_il] at he
    exact (il_inj h2 hy hx hy he).1
  · intro y2 h2 x2 hx2 he
    have hb := mem_range_split_post hy h2
    rw [Nat.log2_two_pow, Nat.log2_two_pow, linear_to_swizzle_eq_il,
      linear_to_swizzle_eq_il] at he
    have := (il_inj hx2 hb.2 hx hy he).2
    omega

/-- Reference transcoder, swizzle direction: cells beyond the surface are
untouched, because every interleaved offset lies inside the surface. -/
theorem slowSwizzle_swizzle_frame (src d : Nat → Nat) (a b i : Nat)
    (hi : 2 ^ a * 2 ^ b ≤ i) :
    slowSwizzle src d (2 ^ a) (2 ^ b) true i = d i := by
  rw [slowSwizzle_write2_true]
  apply write2_ne
  intro y hy x hx he
  have hy' := List.mem_range.mp hy
  rw [Nat.log2_two_pow, Nat.log2_two_pow, linear_to_swizzle_eq_il] at he
  have hlt := il_lt a b x y
  rw [pow_add] at hlt
  omega

/-- Fast transcoder, swizzle direction, supported regime: the cell at each
interleaved offset receives the linear element. -/
theorem fastSwizzle_swizzle (src d : Nat → Nat) (a b y x : Nat)
    (ha : a ≤ 15) (hb : b ≤ 15) (hmin : min a b ≤ 12)
    (hx : x < 2 ^ a) (hy : y < 2 ^ b) :
    fastSwizzle src d (2 ^ a) (2 ^ b) true (linear_to_swizzle x y 0 a b 0)
      = src (y * 2 ^ a + x) := by
  rw [fastSwizzle_write2_true]
  rw [show linear_to_swizzle x y 0 a b 0 = fastOffset (2 ^ a) (2 ^ b) x y from by
    rw [linear_to_swizzle_eq_il, fastOffset_eq_il a b x y ha hb hmin hx hy]]
  rw [range_split hy]
  apply write2_eq _ _ (2 ^ a) (List.range y) _ d y x hx
  · intro x2 h2 he
    rw [fastOffset_eq_il a b x2 y ha hb hmin h2 hy,
      fastOffset_eq_il a b x y ha hb hmin hx hy] at he
    exact (il_inj h2 hy hx hy he).1
  · intro y2 h2 x2 hx2 he
    have hb2 := mem_range_split_post hy h2
    rw [fastOffset_eq_il a b x2 y2 ha hb hmin hx2 hb2.2,
      fastOffset_eq_il a b x y ha hb hmin hx hy] at he
    have := (il_inj hx2 hb2.2 hx hy he).2
    omega

theorem fastSwizzle_swizzle_frame (src d : Nat → Nat) (a b i : Nat)
    (ha : a ≤ 15) (hb : b ≤ 15) (hmin : min a b ≤ 12)
    (hi : 2 ^ a * 2 ^ b ≤ i) :
    fastSwizzle src d (2 ^ a) (2 ^ b) true i = d i := by
  rw [fastSwizzle_write2_true]
  apply write2_ne
  intro y hy x hx he
  have hy' := List.mem_range.mp hy
  rw [fastOffset_eq_il a b x y ha hb hmin hx hy'] at he
  have hlt := il_lt a b x y
  rw [pow_add] at hlt
  omega

/-! ### Claim theorems -/

/-- C5 counterexample: the claim asserts `linear_to_swizzle 3 2 0 2 2 0 = 11`
(binary 1011), but the source places x's least-significant bit at output bit
0, y's at bit 1, and so on, giving binary 1101 = 13; the spec's concrete
example wrote the bit string in the wrong direction. -/
theorem C5_counterexample : linear_to_swizzle 3 2 0 2 2 0 ≠ 11 := by decide

/-- C5 (amended): the address mapper applied to x=3, y=2 with bitsX=2,
bitsY=2 returns 13 (binary 1101): interleaving the bits of 3 (11) and
2 (10) starting with x's least-significant bit puts bit values
1, 0, 1, 1 at output positions 0, 1, 2, 3 respectively. -/
theorem C5_map_concrete : linear_to_swizzle 3 2 0 2 2 0 = 13 := by decide

/-- C2: for all coordinates within their bit budgets, the source's
address mapper returns exactly the spec's alternating bit interleave
(x's least-significant bit first, one bit from each axis in turn, the
surviving axis continuing once the other budget is exhausted). -/
theorem C2_mapper_is_alternating_interleave (x y bitsX bitsY : Nat)
    (hx : x < 2 ^ bitsX) (hy : y < 2 ^ bitsY) :
    linear_to_swizzle x y 0 bitsX bitsY 0 = mapLinearToInterleaved x y bitsX bitsY :=
  linear_to_swizzle_eq_il x y bitsX bitsY

theorem C2_witness : (3 : Nat) < 2 ^ 2 ∧ (2 : Nat) < 2 ^ 2 ∧
    linear_to_swizzle 3 2 0 2 2 0 = mapLinearToInterleaved 3 2 2 2 :=
  ⟨by decide, by decide,
    C2_mapper_is_alternating_interleave 3 2 2 2 (by decide) (by decide)⟩

/-- C10: with no precondition, the mapper depends only on the coordinates
modulo their bit budgets (higher coordinate bits are discarded), and its
result is always below `2^(bitsX+bitsY)`. -/
theorem C10_mod_and_range (x y bitsX bitsY : Nat) :
    linear_to_swizzle x y 0 bitsX bitsY 0
      = linear_to_swizzle (x % 2 ^ bitsX) (y % 2 ^ bitsY) 0 bitsX bitsY 0
    ∧ linear_to_swizzle x y 0 bitsX bitsY 0 < 2 ^ (bitsX + bitsY) := by
  constructor
  · rw [linear_to_swizzle_eq_il, linear_to_swizzle_eq_il, ← il_mod]
  · rw [linear_to_swizzle_eq_il]
    exact il_lt bitsX bitsY x y

/-- C3: on a power-of-two surface (bounded as in the spec by 1..256 per
side) the mapper restricted to the surface is a bijection onto
`{0, ..., width*height - 1}`: every offset is in range, and every offset
in range is hit by exactly one coordinate pair. -/
theorem C3_bijection (w h a b : Nat) (hw : w = 2 ^ a) (hh : h = 2 ^ b)
    (ha : a ≤ 8) (hb : b ≤ 8) :
    (∀ x y, x < w → y < h →
      linear_to_swizzle x y 0 (Nat.log2 w) (Nat.log2 h) 0 < w * h)
    ∧ (∀ o, o < w * h → ∃! p : Nat × Nat,
        (p.1 < w ∧ p.2 < h)
        ∧ linear_to_swizzle p.1 p.2 0 (Nat.log2 w) (Nat.log2 h) 0 = o) := by
  subst hw; subst hh
  rw [Nat.log2_two_pow, Nat.log2_two_pow]
  constructor
  · intro x y hx hy
    rw [linear_to_swizzle_eq_il, ← pow_add]
    exact il_lt a b x y
  · intro o ho
    have ho' : o < 2 ^ (a + b) := by
      rw [pow_add]
      exact ho
    obtain ⟨hil, hx, hy⟩ := il_deil (a := a) (b := b) ho'
    refine ⟨((unInterleave o a b).1, (unInterleave o a b).2), ⟨⟨hx, hy⟩, ?_⟩, ?_⟩
    · rw [linear_to_swizzle_eq_il]
      exact hil
    · rintro ⟨x2, y2⟩ ⟨⟨hx2, hy2⟩, heq⟩
      rw [linear_to_swizzle_eq_il] at heq
      have hinj := il_inj hx2 hy2 hx hy (by rw [heq, hil])
      exact Prod.ext hinj.1 hinj.2

theorem C3_witness : (4 : Nat) = 2 ^ 2 ∧ (4 : Nat) = 2 ^ 2 ∧ (2 : Nat) ≤ 8 ∧
    ((∀ x y, x < 4 → y < 4 →
      linear_to_swizzle x y 0 (Nat.log2 4) (Nat.log2 4) 0 < 4 * 4)
    ∧ (∀ o, o < 4 * 4 → ∃! p : Nat × Nat,
        (p.1 < 4 ∧ p.2 < 4)
        ∧ linear_to_swizzle p.1 p.2 0 (Nat.log2 4) (Nat.log2 4) 0 = o)) :=
  ⟨by decide, by decide, by decide,
    C3_bijection 4 4 2 2 (by decide) (by decide) (by decide) (by decide)⟩

/-- C1: on power-of-two surfaces up to 256 per side, for both values of the
swap flag, the fast and the reference transcoder produce identical
destination buffers from the same source, and the incremental
masked-subtraction offset of the fast path equals `linear_to_swizzle` at
every in-range coordinate. -/
theorem C1_fast_equals_reference (src d : Nat → Nat) (w h a b : Nat) (sw : Bool)
    (hw : w = 2 ^ a) (hh : h = 2 ^ b) (ha : a ≤ 8) (hb : b ≤ 8) :
    (∀ j, fastSwizzle src d w h sw j = slowSwizzle src d w h sw j)
    ∧ (∀ x y, x < w → y < h →
        fastOffset w h x y = linear_to_swizzle x y 0 (Nat.log2 w) (Nat.log2 h) 0) := by
  subst hw; subst hh
  have hmin : min a b ≤ 12 := by omega
  have ha15 : a ≤ 15 := by omega
  have hb15 : b ≤ 15 := by omega
  constructor
  · intro j
    rcases Nat.lt_or_ge j (2 ^ a * 2 ^ b) with hj | hj
    · cases sw with
      | false =>
        have hx : j % 2 ^ a < 2 ^ a := Nat.mod_lt _ (Nat.two_pow_pos a)
        have hy : j / 2 ^ a < 2 ^ b := by
          rw [Nat.div_lt_iff_lt_mul (Nat.two_pow_pos a)]
          rw [Nat.mul_comm]
          exact hj
        have hj2 : j / 2 ^ a * 2 ^ a + j % 2 ^ a = j := by
          have hdm := Nat.div_add_mod j (2 ^ a)
          have hc : 2 ^ a * (j / 2 ^ a) = j / 2 ^ a * 2 ^ a := Nat.mul_comm _ _
          omega
        rw [← hj2]
        rw [fastSwizzle_deswizzle src d _ _ _ _ hx hy,
          slowSwizzle_deswizzle src d _ _ _ _ hx hy]
        congr 1
        rw [Nat.log2_two_pow, Nat.log2_two_pow, linear_to_swizzle_eq_il]
        exact fastOffset_eq_il a b _ _ ha15 hb15 hmin hx hy
      | true =>
        have hj' : j < 2 ^ (a + b) := by
          rw [pow_add]
          exact hj
        obtain ⟨hil, hx, hy⟩ := il_deil (a := a) (b := b) hj'
        have hjl : linear_to_swizzle (unInterleave j a b).1 (unInterleave j a b).2 0 a b 0
            = j := by
          rw [linear_to_swizzle_eq_il]
          exact hil
        rw [← hjl]
        rw [fastSwizzle_swizzle src d a b _ _ ha15 hb15 hmin hx hy,
          slowSwizzle_swizzle src d a b _ _ hx hy]
    · cases sw with
      | false =>
        rw [fastSwizzle_deswizzle_frame src d _ _ j hj,
          slowSwizzle_deswizzle_frame src d _ _ j hj]
      | true =>
        rw [fastSwizzle_swizzle_frame src d a b j ha15 hb15 hmin hj,
          slowSwizzle_swizzle_frame src d a b j hj]
  · intro x y hx hy
    rw [Nat.log2_two_pow, Nat.log2_two_pow, linear_to_swizzle_eq_il]
    exact fastOffset_eq_il a b x y ha15 hb15 hmin hx hy

theorem C1_witness : (4 : Nat) = 2 ^ 2 ∧ (2 : Nat) = 2 ^ 1 ∧ (2 : Nat) ≤ 8 ∧ (1 : Nat) ≤ 8 ∧
    ((∀ j, fastSwizzle (fun i => i) (fun _ => 0) 4 2 true j
        = slowSwizzle (fun i => i) (fun _ => 0) 4 2 true j)
    ∧ (∀ x y, x < 4 → y < 2 →
        fastOffset 4 2 x y = linear_to_swizzle x y 0 (Nat.log2 4) (Nat.log2 2) 0)) :=
  ⟨by decide, by decide, by decide, by decide,
    C1_fast_equals_reference (fun i => i) (fun _ => 0) 4 2 2 1 true
      (by decide) (by decide) (by decide) (by decide)⟩

/-- C6 counterexample: with width=height=4 and swap=false the reference
transcoder writes `source[13]`, not `source[11]`, into
`destination[2*4+3] = destination[11]`, because
`linear_to_swizzle 3 2 0 2 2 0 = 13`. -/
theorem C6_counterexample :
    slowSwizzle (fun i => i) (fun _ => 0) 4 4 false (2 * 4 + 3) ≠ (fun i : Nat => i) 11 := by
  have h1 := slowSwizzle_deswizzle (fun i => i) (fun _ => 0) 4 4 2 3
    (by norm_num) (by norm_num)
  rw [h1]
  have hlog : Nat.log2 4 = 2 := by
    rw [show (4 : Nat) = 2 ^ 2 by norm_num, Nat.log2_two_pow]
  rw [hlog]
  decide

/-- C6 (amended): the reference transcoder performs, for each in-range
`(x, y)`, `destination[y*width + x] = source[offset]` when `swap = false`
and `destination[offset] = source[y*width + x]` when `swap = true`, with
`offset = linear_to_swizzle x y 0 (log2 width) (log2 height) 0`; in the
width=4, height=4, swap=false case it places `source[13]` (not
`source[11]`) at `destination[2*4+3] = destination[11]`. -/
theorem C6_reference_pointwise (src d : Nat → Nat) (w h a b : Nat)
    (hw : w = 2 ^ a) (hh : h = 2 ^ b) :
    (∀ y x, x < w → y < h →
      slowSwizzle src d w h false (y * w + x)
        = src (linear_to_swizzle x y 0 (Nat.log2 w) (Nat.log2 h) 0))
    ∧ (∀ y x, x < w → y < h →
      slowSwizzle src d w h true (linear_to_swizzle x y 0 (Nat.log2 w) (Nat.log2 h) 0)
        = src (y * w + x))
    ∧ (∀ src2 d2 : Nat → Nat, slowSwizzle src2 d2 4 4 false (2 * 4 + 3) = src2 13) := by
  refine ⟨?_, ?_, ?_⟩
  · intro y x hx hy
    exact slowSwizzle_deswizzle src d w h y x hx hy
  · intro y x hx hy
    subst hw; subst hh
    rw [Nat.log2_two_pow, Nat.log2_two_pow]
    exact slowSwizzle_swizzle src d a b y x hx hy
  · intro src2 d2
    have h1 := slowSwizzle_deswizzle src2 d2 4 4 2 3 (by norm_num) (by norm_num)
    rw [h1]
    have hlog : Nat.log2 4 = 2 := by
      rw [show (4 : Nat) = 2 ^ 2 by norm_num, Nat.log2_two_pow]
    rw [hlog]
    congr 1

theorem C6_witness : (4 : Nat) = 2 ^ 2 ∧
    ((∀ y x, x < 4 → y < 4 →
      slowSwizzle (fun i => i) (fun _ => 0) 4 4 false (y * 4 + x)
        = (fun i : Nat => i) (linear_to_swizzle x y 0 (Nat.log2 4) (Nat.log2 4) 0))
    ∧ (∀ y x, x < 4 → y < 4 →
      slowSwizzle (fun i => i) (fun _ => 0) 4 4 true
          (linear_to_swizzle x y 0 (Nat.log2 4) (Nat.log2 4) 0)
        = (fun i : Nat => i) (y * 4 + x))
    ∧ (∀ src2 d2 : Nat → Nat, slowSwizzle src2 d2 4 4 false (2 * 4 + 3) = src2 13)) :=
  ⟨by decide,
    C6_reference_pointwise (fun i => i) (fun _ => 0) 4 4 2 2 (by decide) (by decide)⟩

theorem il_degenerate (a b x y : Nat) (hab : a = 0 ∨ b = 0)
    (hx : x < 2 ^ a) (hy : y < 2 ^ b) :
    mapLinearToInterleaved x y a b = y * 2 ^ a + x := by
  rcases hab with h | h
  · subst h
    have h0 : (2 : Nat) ^ 0 = 1 := rfl
    have hx0 : x = 0 := by omega
    subst hx0
    rw [il_y_only b 0 y hy, h0]
    omega
  · subst h
    have h0 : (2 : Nat) ^ 0 = 1 := rfl
    have hy0 : y = 0 := by omega
    subst hy0
    rw [il_x_only a x 0 hx]
    omega

/-- C7: for degenerate single-row or single-column power-of-two surfaces,
both transcoders write only inside the surface and realize the identity
permutation; every offset the loops use stays below `width*height`, and
cells beyond the surface are never touched. -/
theorem C7_degenerate_identity (src d : Nat → Nat) (w h a b : Nat)
    (hw : w = 2 ^ a) (hh : h = 2 ^ b) (ha : a ≤ 15) (hb : b ≤ 15)
    (hdeg : w = 1 ∨ h = 1) (sw : Bool) :
    (∀ i, i < w * h →
      fastSwizzle src d w h sw i = src i ∧ slowSwizzle src d w h sw i = src i)
    ∧ (∀ x y, x < w → y < h →
        fastOffset w h x y = y * w + x
        ∧ linear_to_swizzle x y 0 (Nat.log2 w) (Nat.log2 h) 0 = y * w + x
        ∧ y * w + x < w * h)
    ∧ (∀ j, w * h ≤ j →
        fastSwizzle src d w h sw j = d j ∧ slowSwizzle src d w h sw j = d j) := by
  subst hw; subst hh
  have hab : a = 0 ∨ b = 0 := by
    rcases hdeg with h1 | h1
    · left
      by_contra hne
      rcases Nat.exists_eq_succ_of_ne_zero hne with ⟨n, rfl⟩
      have h2 : (2 : Nat) ^ (n + 1) = 2 * 2 ^ n := by ring
      have h3 := Nat.two_pow_pos n
      omega
    · right
      by_contra hne
      rcases Nat.exists_eq_succ_of_ne_zero hne with ⟨n, rfl⟩
      have h2 : (2 : Nat) ^ (n + 1) = 2 * 2 ^ n := by ring
      have h3 := Nat.two_pow_pos n
      omega
  have hmin : min a b ≤ 12 := by
    rcases hab with h1 | h1 <;> subst h1 <;> omega
  refine ⟨?_, ?_, ?_⟩
  · intro i hi
    have hx : i % 2 ^ a < 2 ^ a := Nat.mod_lt _ (Nat.two_pow_pos a)
    have hy : i / 2 ^ a < 2 ^ b := by
      rw [Nat.div_lt_iff_lt_mul (Nat.two_pow_pos a)]
      rw [Nat.mul_comm]
      exact hi
    have hj2 : i / 2 ^ a * 2 ^ a + i % 2 ^ a = i := by
      have hdm := Nat.div_add_mod i (2 ^ a)
      have hc : 2 ^ a * (i / 2 ^ a) = i / 2 ^ a * 2 ^ a := Nat.mul_comm _ _
      omega
    have hil : linear_to_swizzle (i % 2 ^ a) (i / 2 ^ a) 0 a b 0 = i := by
      rw [linear_to_swizzle_eq_il, il_degenerate a b _ _ hab hx hy, hj2]
    have hfo : fastOffset (2 ^ a) (2 ^ b) (i % 2 ^ a) (i / 2 ^ a) = i := by
      rw [fastOffset_eq_il a b _ _ ha hb hmin hx hy, il_degenerate a b _ _ hab hx hy, hj2]
    cases sw with
    | false =>
      constructor
      · conv_lhs => rw [← hj2]
        rw [fastSwizzle_deswizzle src d _ _ _ _ hx hy, hfo]
      · conv_lhs => rw [← hj2]
        rw [slowSwizzle_deswizzle src d _ _ _ _ hx hy]
        rw [Nat.log2_two_pow, Nat.log2_two_pow, hil]
    | true =>
      constructor
      · conv_lhs => rw [← hil]
        rw [fastSwizzle_swizzle src d a b _ _ ha hb hmin hx hy, hj2]
      · conv_lhs => rw [← hil]
        rw [slowSwizzle_swizzle src d a b _ _ hx hy, hj2]
  · intro x y hx hy
    refine ⟨?_, ?_, ?_⟩
    · rw [fastOffset_eq_il a b x y ha hb hmin hx hy, il_degenerate a b x y hab hx hy]
    · rw [Nat.log2_two_pow, Nat.log2_two_pow, linear_to_swizzle_eq_il,
        il_degenerate a b x y hab hx hy]
    · have h1 : (y + 1) * 2 ^ a ≤ 2 ^ b * 2 ^ a := Nat.mul_le_mul_right _ (by omega)
      have h2 : (y + 1) * 2 ^ a = y * 2 ^ a + 2 ^ a := by ring
      have h3 : 2 ^ b * 2 ^ a = 2 ^ a * 2 ^ b := Nat.mul_comm _ _
      omega
  · intro j hj
    cases sw with
    | false =>
      exact ⟨fastSwizzle_deswizzle_frame src d _ _ j hj,
        slowSwizzle_deswizzle_frame src d _ _ j hj⟩
    | true =>
      exact ⟨fastSwizzle_swizzle_frame src d a b j ha hb hmin hj,
        slowSwizzle_swizzle_frame src d a b j hj⟩

theorem C7_witness : (1 : Nat) = 2 ^ 0 ∧ (4 : Nat) = 2 ^ 2 ∧ ((1 : Nat) = 1 ∨ (4 : Nat) = 1) ∧
    ((∀ i, i < 1 * 4 →
      fastSwizzle (fun i => i) (fun _ => 0) 1 4 false i = (fun i : Nat => i) i
      ∧ slowSwizzle (fun i => i) (fun _ => 0) 1 4 false i = (fun i : Nat => i) i)
    ∧ (∀ x y, x < 1 → y < 4 →
        fastOffset 1 4 x y = y * 1 + x
        ∧ linear_to_swizzle x y 0 (Nat.log2 1) (Nat.log2 4) 0 = y * 1 + x
        ∧ y * 1 + x < 1 * 4)
    ∧ (∀ j, 1 * 4 ≤ j →
        fastSwizzle (fun i => i) (fun _ => 0) 1 4 false j = (fun _ : Nat => (0 : Nat)) j
        ∧ slowSwizzle (fun i => i) (fun _ => 0) 1 4 false j = (fun _ : Nat => (0 : Nat)) j)) :=
  ⟨by decide, by decide, Or.inl rfl,
    C7_degenerate_identity (fun i => i) (fun _ => 0) 1 4 0 2
      (by decide) (by decide) (by decide) (by decide) (Or.inl rfl) false⟩

/-- C4 (amended): on power-of-two surfaces whose smaller dimension is at
most `2^12 = 4096` (the reach of the 24-bit alternating mask constants),
swizzling (`swap = true`) and then deswizzling (`swap = false`), with the
fast or the reference transcoder at each step, restores the source buffer
on every surface cell; square and non-square sizes alike. -/
theorem C4_roundtrip (src d1 d2 : Nat → Nat) (w h a b : Nat)
    (hw : w = 2 ^ a) (hh : h = 2 ^ b) (ha : a ≤ 15) (hb : b ≤ 15)
    (hmin : min a b ≤ 12) :
    ∀ j, j < w * h →
      slowSwizzle (slowSwizzle src d1 w h true) d2 w h false j = src j
      ∧ slowSwizzle (fastSwizzle src d1 w h true) d2 w h false j = src j
      ∧ fastSwizzle (slowSwizzle src d1 w h true) d2 w h false j = src j
      ∧ fastSwizzle (fastSwizzle src d1 w h true) d2 w h false j = src j := by
  subst hw; subst hh
  intro j hj
  have hx : j % 2 ^ a < 2 ^ a := Nat.mod_lt _ (Nat.two_pow_pos a)
  have hy : j / 2 ^ a < 2 ^ b := by
    rw [Nat.div_lt_iff_lt_mul (Nat.two_pow_pos a)]
    rw [Nat.mul_comm]
    exact hj
  have hj2 : j / 2 ^ a * 2 ^ a + j % 2 ^ a = j := by
    have hdm := Nat.div_add_mod j (2 ^ a)
    have hc : 2 ^ a * (j / 2 ^ a) = j / 2 ^ a * 2 ^ a := Nat.mul_comm _ _
    omega
  have hfo : fastOffset (2 ^ a) (2 ^ b) (j % 2 ^ a) (j / 2 ^ a)
      = linear_to_swizzle (j % 2 ^ a) (j / 2 ^ a) 0 a b 0 := by
    rw [fastOffset_eq_il a b _ _ ha hb hmin hx hy, linear_to_swizzle_eq_il]
  refine ⟨?_, ?_, ?_, ?_⟩
  · conv_lhs => rw [← hj2]
    rw [slowSwizzle_deswizzle _ d2 _ _ _ _ hx hy, Nat.log2_two_pow, Nat.log2_two_pow,
      slowSwizzle_swizzle src d1 a b _ _ hx hy, hj2]
  · conv_lhs => rw [← hj2]
    rw [slowSwizzle_deswizzle _ d2 _ _ _ _ hx hy, Nat.log2_two_pow, Nat.log2_two_pow,
      fastSwizzle_swizzle src d1 a b _ _ ha hb hmin hx hy, hj2]
  · conv_lhs => rw [← hj2]
    rw [fastSwizzle_deswizzle _ d2 _ _ _ _ hx hy, hfo,
      slowSwizzle_swizzle src d1 a b _ _ hx hy, hj2]
  · conv_lhs => rw [← hj2]
    rw [fastSwizzle_deswizzle _ d2 _ _ _ _ hx hy, hfo,
      fastSwizzle_swizzle src d1 a b _ _ ha hb hmin hx hy, hj2]

theorem C4_witness : (4 : Nat) = 2 ^ 2 ∧ (2 : Nat) = 2 ^ 1 ∧ min 2 1 ≤ 12 ∧
    (∀ j, j < 4 * 2 →
      slowSwizzle (slowSwizzle (fun i => i) (fun _ => 0) 4 2 true) (fun _ => 0)
          4 2 false j = (fun i : Nat => i) j
      ∧ slowSwizzle (fastSwizzle (fun i => i) (fun _ => 0) 4 2 true) (fun _ => 0)
          4 2 false j = (fun i : Nat => i) j
      ∧ fastSwizzle (slowSwizzle (fun i => i) (fun _ => 0) 4 2 true) (fun _ => 0)
          4 2 false j = (fun i : Nat => i) j
      ∧ fastSwizzle (fastSwizzle (fun i => i) (fun _ => 0) 4 2 true) (fun _ => 0)
          4 2 false j = (fun i : Nat => i) j) :=
  ⟨by decide, by decide, by decide,
    C4_roundtrip (fun i => i) (fun _ => 0) (fun _ => 0) 4 2 2 1
      (by decide) (by decide) (by decide) (by decide) (by decide)⟩

/-- C4 counterexample: at 8192 x 8192 (the smallest power-of-two surface
whose smaller dimension exceeds `2^12`) the alternating mask constants
`0x555555`/`0xAAAAAA` are too narrow: the fast swizzler never writes cell
`2^24`, so a fast swizzle followed by a reference deswizzle loses data.
With the identity source and zero-initialized outputs, the round trip
returns 0 instead of 4096 at linear index 4096. -/
theorem C4_counterexample :
    slowSwizzle (fastSwizzle (fun i => i) (fun _ => 0) 8192 8192 true) (fun _ => 0)
      8192 8192 false 4096 ≠ (fun i : Nat => i) 4096 := by
  have h8192 : (8192 : Nat) = 2 ^ 13 := by norm_num
  have h1 := slowSwizzle_deswizzle (fastSwizzle (fun i => i) (fun _ => 0) 8192 8192 true)
    (fun _ => 0) 8192 8192 0 4096 (by norm_num) (by norm_num)
  conv_lhs => rw [show (4096 : Nat) = 0 * 8192 + 4096 by norm_num]
  rw [h1]
  have hlog : Nat.log2 8192 = 13 := by rw [h8192, Nat.log2_two_pow]
  rw [hlog]
  rw [show linear_to_swizzle 4096 0 0 13 13 0 = 16777216 from by decide]
  have hmid : fastSwizzle (fun i => i) (fun _ => 0) 8192 8192 true 16777216 = 0 := by
    rw [fastSwizzle_write2_true]
    apply write2_ne
    intro y hy x hx he
    have hy' := List.mem_range.mp hy
    rw [h8192] at he
    have hov : (y / 2 ^ min (min 13 13) 12 + x / 2 ^ min (min 13 13) 12 + 1)
        * 4 ^ min 13 13 < 2 ^ 32 := by
      have hmm : min (min 13 13) 12 = 12 := by norm_num
      have hm2 : min 13 13 = 13 := by norm_num
      rw [hmm, hm2]
      have h2p : (2 : Nat) ^ 12 = 4096 := by norm_num
      have h4p : (4 : Nat) ^ 13 = 67108864 := by norm_num
      have h32 : (2 : Nat) ^ 32 = 4294967296 := by norm_num
      rw [h2p, h4p, h32]
      have hxd : x / 4096 ≤ 1 := by omega
      have hyd : y / 4096 ≤ 1 := by omega
      omega
    rw [fastOffset_spread 13 13 x y (by norm_num) (by norm_num) hov] at he
    norm_num at he
    have hsy := sE_le_ev 12 y
    have hsx := sE_le_ev 12 x
    have hev : ev 12 = 5592405 := by decide
    have hxd : x / 4096 ≤ 1 := by omega
    have hyd : y / 4096 ≤ 1 := by omega
    omega
  rw [hmid]
  decide

/-- C8: the byte count `main` hands to `memcmp` is `max_h * max_w`, a
quarter of the `4 * width * height` bytes the two u32 output surfaces
occupy, so the comparison is not full: two buffers that differ only at
element index 8192 (inside the surface) compare equal over the bytes
`memcmp` actually visits.  The spec intends a full bitwise comparison;
the call is missing the `sizeof(u32)` factor. -/
theorem C8_memcmp_covers_quarter :
    mainCmpBytes = mainMaxH * mainMaxW
    ∧ mainCmpBytes < mainSurfaceBytes
    ∧ 8192 < mainMaxW * mainMaxH
    ∧ (fun _ : Nat => (0 : Nat)) 8192 ≠ (fun i => if i = 8192 then (1 : Nat) else 0) 8192
    ∧ memcmpEq (fun _ => 0) (fun i => if i = 8192 then 1 else 0) mainCmpBytes := by
  refine ⟨rfl, by norm_num [mainCmpBytes, mainSurfaceBytes, mainMaxW, mainMaxH], ?_, ?_, ?_⟩
  · norm_num [mainMaxW, mainMaxH]
  · decide
  · intro i hi
    have hi' : i < 16384 := hi
    have h4 : i / 4 < 4096 := by omega
    unfold elemByte
    simp only
    rw [if_neg (by omega : ¬ i / 4 = 8192)]

/-- C9: `main` returns the literal 0 on its only exit path; a detected
mismatch prints a message and blocks on console input but is never turned
into a non-zero exit status. -/
theorem C9_exit_always_zero (mismatches : List Bool) (hms : true ∈ mismatches) :
    mainExitCode mismatches = 0 := rfl

theorem C9_witness : true ∈ [true] ∧ mainExitCode [true] = 0 :=
  ⟨by decide, C9_exit_always_zero [true] (by decide)⟩
